import Mathlib

/-!
Verification development for the plan-validation / transaction engine of the
VedxBuilder backend (services/fs-adapter.ts, services/planner.ts,
services/txn.ts and the ai.routes apply endpoint).

The TypeScript sources are shallowly embedded: the real filesystem is an
association list from relative paths to file contents, JavaScript string
operations are modelled on the underlying character lists, fallible
operations return Except values carrying the source's error messages, and
in-place mutation of shared objects (the validator rewriting a change's
applyMethod, visible through the plan store) is modelled by explicit state
passing that returns the mutated values.
-/

namespace VedxBuilder

/-- JavaScript falsiness for an optional string field: a field is falsy when
it is absent (undefined) or the empty string. The TypeScript code guards
optional payload fields with bare truthiness tests such as
`if (!change.content)`, so the empty string counts as missing. -/
def strFalsy : Option String → Bool
  | none => true
  | some s => s == ""

/-- Split a character list at every occurrence of the separator, keeping
empty pieces, with an accumulator for the piece being built (reversed).
This is the semantics of JavaScript String.prototype.split with a
single-character separator, used on the underlying character list. -/
def splitOnCharAux (c : Char) : List Char → List Char → List (List Char)
  | [], acc => [acc.reverse]
  | a :: rest, acc =>
    if a = c then acc.reverse :: splitOnCharAux c rest []
    else splitOnCharAux c rest (a :: acc)

/-- Split a character list at every occurrence of the separator. -/
def splitOnChar (c : Char) (l : List Char) : List (List Char) :=
  splitOnCharAux c l []

/-- Join pieces with a separator character, the semantics of
Array.prototype.join with a one-character separator. -/
def joinWith (c : Char) : List (List Char) → List Char
  | [] => []
  | [x] => x
  | x :: rest => x ++ c :: joinWith c rest

/-- Resolve the segments of a relative or absolute posix path the way
node's path.normalize does: empty segments and single dots are dropped, a
double dot pops the previous segment when one is available and is kept
(for relative paths) or dropped (for absolute paths) otherwise. The stack
holds the resolved segments in reverse order. -/
def resolveSegs (allowAbove : Bool) : List (List Char) → List (List Char) → List (List Char)
  | [], stack => stack.reverse
  | seg :: rest, stack =>
    if seg = [] ∨ seg = ['.'] then resolveSegs allowAbove rest stack
    else if seg = ['.', '.'] then
      match stack with
      | top :: stk =>
        if top = ['.', '.'] then resolveSegs allowAbove rest (seg :: top :: stk)
        else resolveSegs allowAbove rest stk
      | [] =>
        if allowAbove then resolveSegs allowAbove rest [seg]
        else resolveSegs allowAbove rest []
    else resolveSegs allowAbove rest (seg :: stack)

/-- node's path.posix.normalize on the underlying character list: resolve
the slash-separated segments, then re-attach a leading slash for absolute
paths and a trailing slash when the input had one, with the degenerate
empty results mapped to ".", "./" or "/" exactly as node does. -/
def normalizeChars (p : List Char) : List Char :=
  if p = [] then ['.']
  else
    let isAbs := p.head? = some '/'
    let trailing := p.getLast? = some '/'
    let segs := resolveSegs (!isAbs) (splitOnChar '/' p) []
    let body := joinWith '/' segs
    if body = [] then
      if isAbs then ['/'] else if trailing then ['.', '/'] else ['.']
    else
      let body' := if trailing then body ++ ['/'] else body
      if isAbs then '/' :: body' else body'

/-- path.normalize lifted back to strings. -/
def normalize (s : String) : String := ⟨normalizeChars s.data⟩

/-- The allow-list the FSAdapter constructor installs (fs-adapter.ts,
constructor): directory prefixes plus a handful of exact file names. -/
def allowedPathsList : List String :=
  ["src/", "public/", "components/", "pages/", "styles/", "utils/",
   "hooks/", "services/", "types/", "tests/", "__tests__/", "docs/",
   "README.md", "package.json", "tsconfig.json", "vite.config.ts",
   "tailwind.config.js", ".env.example"]

/-- JavaScript String.prototype.includes on character lists: does the
pattern occur as a contiguous substring? -/
def listIncludes (pat : List Char) : List Char → Bool
  | [] => pat.isEmpty
  | a :: t => List.isPrefixOf pat (a :: t) || listIncludes pat t

/-- FSAdapter.isPathAllowed on the underlying character list: normalize,
reject when the normalized path contains ".." anywhere (a substring test,
JavaScript String.prototype.includes) or starts with a slash, then accept
exactly when some allow-list entry is a prefix of (or equal to) the
normalized path. -/
def isPathAllowedChars (p : List Char) : Bool :=
  let n := normalizeChars p
  if listIncludes ['.', '.'] n || List.isPrefixOf ['/'] n then false
  else allowedPathsList.any fun a => List.isPrefixOf a.data n || n == a.data

/-- FSAdapter.isPathAllowed. -/
def isPathAllowed (filePath : String) : Bool :=
  isPathAllowedChars filePath.data

/-! ## Filesystem model and FSAdapter operations

The workspace is modelled as an association list from relative paths to
file contents (directories and binary data play no role in the claims).
Every adapter operation first consults the Path Policy Guard, as
getAbsolutePath does in fs-adapter.ts, and failures carry the adapter's
rewrapped error messages. -/

/-- The workspace filesystem: an association list path ↦ content. -/
abbrev FS := List (String × String)

deriving instance DecidableEq for Except

/-- Lookup of a path's content. -/
def fsLookup : FS → String → Option String
  | [], _ => none
  | (p, c) :: rest, q => if q = p then some c else fsLookup rest q

/-- Remove a path's entry (the effect of fs.unlink on the model). -/
def fsErase (fs : FS) (p : String) : FS :=
  fs.filter fun e => decide (e.1 ≠ p)

/-- Set a path's content (the net effect of FSAdapter.writeFile's
temp-file-then-rename sequence). -/
def fsSet (fs : FS) (p c : String) : FS :=
  fsErase fs p ++ [(p, c)]

/-- FSAdapter.exists: false when the path policy rejects the path (the
getAbsolutePath throw is swallowed by the catch) or the file is absent. -/
def fsExistsA (fs : FS) (p : String) : Bool :=
  isPathAllowed p && (fsLookup fs p).isSome

/-- FSAdapter.readFile: the catch block rewraps both a policy rejection
and a read failure into the same error message. -/
def fsReadFileA (fs : FS) (p : String) : Except String String :=
  if isPathAllowed p then
    match fsLookup fs p with
    | some c => .ok c
    | none => .error ("Failed to read file: " ++ p)
  else .error ("Failed to read file: " ++ p)

/-- FSAdapter.writeFile: creates or overwrites; only a policy rejection
can fail in the model. -/
def fsWriteFileA (fs : FS) (p c : String) : Except String FS :=
  if isPathAllowed p then .ok (fsSet fs p c)
  else .error ("Failed to write file: " ++ p)

/-- FSAdapter.deleteFile: fails when the policy rejects the path or the
file is absent (fs.unlink on a missing file throws). -/
def fsDeleteFileA (fs : FS) (p : String) : Except String FS :=
  if isPathAllowed p then
    match fsLookup fs p with
    | some _ => .ok (fsErase fs p)
    | none => .error ("Failed to delete file: " ++ p)
  else .error ("Failed to delete file: " ++ p)

/-- FSAdapter.renameFile: both endpoints pass the guard, the source must
exist, and the target is overwritten; all failures are rewrapped into one
message by the catch block. -/
def fsRenameFileA (fs : FS) (o n : String) : Except String FS :=
  if isPathAllowed o && isPathAllowed n then
    match fsLookup fs o with
    | some c => .ok (fsSet (fsErase fs o) n c)
    | none => .error ("Failed to rename file: " ++ o ++ " -> " ++ n)
  else .error ("Failed to rename file: " ++ o ++ " -> " ++ n)

/-! ## FileChange data model (types/contracts) -/

/-- FileChange.op. -/
inductive Op where
  | create | update | delete | rename
deriving DecidableEq

/-- FileChange.applyMethod. -/
inductive ApplyMethod where
  | diff | replaceFile | insertAtLine
deriving DecidableEq

/-- A FileChange. Optional fields are Option values; the insert line is a
JavaScript number, modelled as an integer. -/
structure FileChange where
  file : String
  op : Op
  applyMethod : ApplyMethod
  content : Option String := none
  diff : Option String := none
  newPath : Option String := none
  insertAtLine : Option Int := none
deriving DecidableEq

/-! ## PlannerService (services/planner.ts)

Step carries only the fields the validator reads (id and dependencies;
description, type and status are opaque to validation). validatePlan is
pure up to the live filesystem, which is passed explicitly. -/

/-- A plan step as the validator sees it. -/
structure Step where
  id : String
  dependencies : List String
deriving DecidableEq

/-- An AI plan document (AIResponse) restricted to the fields the core
processes: id, steps and file changes. -/
structure Plan where
  id : String
  steps : List Step
  changes : List FileChange
deriving DecidableEq

/-- PlannerService.validateFileChange, apply-method payload part: the
three sequential if-checks that follow the operation switch. -/
def payloadCheck (ch : FileChange) : Option String :=
  if ch.applyMethod = ApplyMethod.diff ∧ strFalsy ch.diff then
    some "Diff content required for diff apply method"
  else if ch.applyMethod = ApplyMethod.replaceFile ∧ strFalsy ch.content then
    some "Content required for replaceFile apply method"
  else if ch.applyMethod = ApplyMethod.insertAtLine ∧
      (ch.insertAtLine = none ∨ strFalsy ch.content) then
    some "Line number and content required for insertAtLine apply method"
  else none

/-- PlannerService.validateFileChange: path policy first, then the
per-operation existence precondition, then the payload checks; returns
the first error or none when the change is valid. -/
def plannerValidateFileChange (fs : FS) (ch : FileChange) : Option String :=
  if ¬ isPathAllowed ch.file then some "Path not allowed by security policy"
  else
    match ch.op with
    | Op.create =>
      if fsExistsA fs ch.file then some "File already exists" else payloadCheck ch
    | Op.update =>
      if ¬ fsExistsA fs ch.file then some "File does not exist" else payloadCheck ch
    | Op.delete =>
      if ¬ fsExistsA fs ch.file then some "File does not exist" else payloadCheck ch
    | Op.rename =>
      if ¬ fsExistsA fs ch.file then some "Source file does not exist"
      else if strFalsy ch.newPath then some "New path required for rename operation"
      else payloadCheck ch

/-- All step and dependency identifiers occurring in a step list; the
depth-first search only ever visits identifiers from this list. -/
def stepUniv (steps : List Step) : List String :=
  steps.map Step.id ++ steps.flatMap Step.dependencies

/-- PlannerService.hasCircularDependencies, fueled. The worklist ids holds
the identifiers still to be examined at the current depth; visited and the
recursion stack are threaded exactly as the JavaScript sets are (visited
persists across sibling calls, the stack is restored on return). One unit
of fuel is consumed per examined identifier; hasCycleFuel below always
suffices, so the source's unfueled recursion is total. -/
def hasCycleMany (steps : List Step) : Nat → List String → List String → List String →
    Option (Bool × List String)
  | 0, _, _, _ => none
  | _ + 1, [], visited, _ => some (false, visited)
  | fuel + 1, id :: rest, visited, stack =>
    if stack.contains id then some (true, visited)
    else if visited.contains id then hasCycleMany steps fuel rest visited stack
    else
      match steps.find? (fun s => s.id == id) with
      | none => hasCycleMany steps fuel rest (id :: visited) stack
      | some st =>
        match hasCycleMany steps fuel st.dependencies (id :: visited) (id :: stack) with
        | none => none
        | some (true, v) => some (true, v)
        | some (false, v) => hasCycleMany steps fuel rest v stack

/-- The number of dependencies the search would expand for an identifier:
the dependency count of the first step with that id, zero otherwise. -/
def depsLen (steps : List Step) (x : String) : Nat :=
  match steps.find? (fun s => s.id == x) with
  | some st => st.dependencies.length
  | none => 0

/-- The total examination cost of the identifiers not yet visited: one
unit for examining each plus one per dependency it would expand. -/
def stepWeight (steps : List Step) (v : List String) : Nat :=
  ((stepUniv steps).toFinset \ v.toFinset).sum fun x => 1 + depsLen steps x

/-- The fuel budget that provably never runs out: one unit per step of the
outer loop plus the examination cost of every identifier. -/
def hasCycleFuel (steps : List Step) : Nat :=
  steps.length + stepWeight steps [] + 1

/-- PlannerService.hasCircularDependencies as an Option: none would mean
the fuel ran out (it never does, see the termination lemma). -/
def hasCircularDependenciesO (steps : List Step) : Option Bool :=
  (hasCycleMany steps (hasCycleFuel steps) (steps.map Step.id) [] []).map Prod.fst

/-- PlannerService.hasCircularDependencies. -/
def hasCircularDependencies (steps : List Step) : Bool :=
  (hasCircularDependenciesO steps).getD true

/-- The per-change error collection loop of validatePlan, prefixing each
error with the file name. -/
def collectChangeErrs (fs : FS) : List FileChange → List String
  | [] => []
  | ch :: rest =>
    (match plannerValidateFileChange fs ch with
     | some e => ["File " ++ ch.file ++ ": " ++ e]
     | none => []) ++ collectChangeErrs fs rest

/-- The dangling-dependency error collection loop of validatePlan. -/
def collectDepErrs (ids : List String) : List Step → List String
  | [] => []
  | st :: rest =>
    (st.dependencies.filter fun d => !ids.contains d).map
      (fun d => "Step " ++ st.id ++ " has invalid dependency: " ++ d)
      ++ collectDepErrs ids rest

/-- The error list validatePlan accumulates: per-change errors, dangling
dependency errors, and a single circular-dependency error. -/
def validatePlanErrors (fs : FS) (plan : Plan) : List String :=
  collectChangeErrs fs plan.changes
    ++ collectDepErrs (plan.steps.map Step.id) plan.steps
    ++ (if hasCircularDependencies plan.steps
        then ["Plan contains circular dependencies"] else [])

/-- PlannerService.validatePlan: collect the errors and report the plan
valid exactly when no error was collected. (The try/catch fallback
"Internal validation error" is unreachable in the pure model.) -/
def validatePlan (fs : FS) (plan : Plan) : Bool × List String :=
  ((validatePlanErrors fs plan).isEmpty, validatePlanErrors fs plan)

/-- The dependency edge relation of a step list: x steps to y when the
first step whose id is x lists y among its dependencies (steps.find has
first-match semantics, so duplicate ids resolve to the first step). -/
def stepEdge (steps : List Step) (x y : String) : Prop :=
  ∃ st, steps.find? (fun s => s.id == x) = some st ∧ y ∈ st.dependencies

/-- A step-dependency graph contains a cycle: some identifier reaches
itself through at least one edge. -/
def Cyclic (steps : List Step) : Prop :=
  ∃ x, Relation.TransGen (stepEdge steps) x x

/-! ## TransactionService (services/txn.ts)

executeTransaction is modelled as a function from the pre-state of the
filesystem to its post-state, the (possibly mutated) change list, and
either the returned result record or the thrown error message. The
journal, the emitted progress events and the etag fingerprints stored in
backups are bookkeeping with no effect on any behavior below and are not
modelled. -/

/-- ApplyPlanRequest.options. -/
structure TxnOptions where
  createBackups : Bool
  formatOnSave : Bool
  dryRun : Bool
deriving DecidableEq

/-- One file of a TransactionBackup. The source also records an etag
fingerprint of the content; rollback never reads it. -/
structure BackupEntry where
  path : String
  content : String
  existed : Bool
deriving DecidableEq

/-- The result record of executeTransaction. -/
structure TxnResult where
  success : Bool
  appliedFiles : List String
  errors : List String
deriving DecidableEq

/-- TransactionService.createBackups: only update and delete changes are
captured; a read failure on an existing file is logged and skipped. -/
def createBackupsFn (fs : FS) : List FileChange → List BackupEntry
  | [] => []
  | ch :: rest =>
    (if ch.op = Op.update ∨ ch.op = Op.delete then
      if fsExistsA fs ch.file then
        match fsReadFileA fs ch.file with
        | .ok c => [⟨ch.file, c, true⟩]
        | .error _ => []
      else [⟨ch.file, "", false⟩]
    else []) ++ createBackupsFn fs rest

/-- The outcome of validating one change. -/
structure ValidationResult where
  valid : Bool
  error : Option String := none
deriving DecidableEq

/-- TransactionService.validateDiff: the structural sanity check — the
diff text must contain the marker "@@" and at least one "+" or "-"
character (String.prototype.includes, a substring test). -/
def validateDiff (diff : String) : Bool :=
  listIncludes "@@".data diff.data &&
    (listIncludes "+".data diff.data || listIncludes "-".data diff.data)

/-- One iteration of TransactionService.validateChanges: the path-policy
check, the pre-read of update targets (whose failure message becomes the
validation error; the computed etag is discarded, the comparison being a
TODO in the source), and the diff structural check with the in-place
fallback to replaceFile — note the source mutates change.applyMethod
before checking whether fallback content exists, so the returned change
is rewritten even when the result is invalid. -/
def validateOneChange (fs : FS) (ch : FileChange) : ValidationResult × FileChange :=
  if ¬ isPathAllowed ch.file then (⟨false, some "Path not allowed"⟩, ch)
  else
    match (if ch.op = Op.update then (fsReadFileA fs ch.file).map fun _ => () else .ok ()) with
    | .error e => (⟨false, some e⟩, ch)
    | .ok _ =>
      if ch.applyMethod = ApplyMethod.diff ∧ ¬ strFalsy ch.diff then
        if validateDiff (ch.diff.getD "") then (⟨true, none⟩, ch)
        else
          let ch' := { ch with applyMethod := ApplyMethod.replaceFile }
          if strFalsy ch.content then
            (⟨false, some "Diff invalid and no fallback content provided"⟩, ch')
          else (⟨true, none⟩, ch')
      else (⟨true, none⟩, ch)

/-- TransactionService.validateChanges over the list, returning the
results and the (possibly mutated) changes. -/
def validateChangesRun (fs : FS) : List FileChange → List ValidationResult × List FileChange
  | [] => ([], [])
  | ch :: rest =>
    let rc := validateOneChange fs ch
    let rr := validateChangesRun fs rest
    (rc.1 :: rr.1, rc.2 :: rr.2)

/-- JavaScript Array.prototype.splice(start, 0, x): insert x at the
clamped start index (negative indices count from the end). -/
def spliceInsert (ls : List (List Char)) (start : Int) (x : List Char) : List (List Char) :=
  let n : Int := ls.length
  let actual : Nat := (if start < 0 then max (n + start) 0 else min start n).toNat
  ls.take actual ++ [x] ++ ls.drop actual

/-- TransactionService.insertAtLine: read, split into lines, splice the
content in before the 1-based line number, rejoin, write back. -/
def insertAtLineA (fs : FS) (p : String) (lineNumber : Int) (content : String) :
    Except String FS :=
  match fsReadFileA fs p with
  | .error e => .error e
  | .ok cur =>
    let lines := splitOnChar '\n' cur.data
    let newLines := spliceInsert lines (lineNumber - 1) content.data
    fsWriteFileA fs p ⟨joinWith '\n' newLines⟩

/-- TransactionService.applyUpdate: dispatch on the apply method. The
diff branch always fails: applyDiff unconditionally throws its
not-implemented error. -/
def applyUpdate (fs : FS) (ch : FileChange) : Except String FS :=
  match ch.applyMethod with
  | ApplyMethod.replaceFile =>
    if strFalsy ch.content then .error "Content required for replaceFile method"
    else fsWriteFileA fs ch.file (ch.content.getD "")
  | ApplyMethod.diff =>
    if strFalsy ch.diff then .error "Diff required for diff method"
    else .error "Diff application not yet implemented - use replaceFile method"
  | ApplyMethod.insertAtLine =>
    if ch.insertAtLine = none ∨ strFalsy ch.content then
      .error "Line number and content required for insertAtLine method"
    else insertAtLineA fs ch.file (ch.insertAtLine.getD 0) (ch.content.getD "")

/-- TransactionService.applyFileChange: dispatch on the operation.
formatOnSave only logs in the source (formatFile is a stub), so it has no
filesystem effect to model. -/
def applyFileChange (fs : FS) (ch : FileChange) : Except String FS :=
  match ch.op with
  | Op.create => fsWriteFileA fs ch.file (ch.content.getD "")
  | Op.update => applyUpdate fs ch
  | Op.delete => fsDeleteFileA fs ch.file
  | Op.rename =>
    if strFalsy ch.newPath then .error "New path required for rename operation"
    else fsRenameFileA fs ch.file (ch.newPath.getD "")

/-- One file of TransactionService.rollbackTransaction: restore the
backed-up content when the file existed, delete the file when it did not
exist and is present now; per-file failures are logged and skipped. -/
def rollbackStep (fs : FS) (b : BackupEntry) : FS :=
  if b.existed then
    match fsWriteFileA fs b.path b.content with
    | .ok fs' => fs'
    | .error _ => fs
  else if fsExistsA fs b.path then
    match fsDeleteFileA fs b.path with
    | .ok fs' => fs'
    | .error _ => fs
  else fs

/-- TransactionService.rollbackTransaction over the backup set. -/
def rollbackFiles (fs : FS) : List BackupEntry → FS
  | [] => fs
  | b :: rest => rollbackFiles (rollbackStep fs b) rest

/-- Phase 3 of executeTransaction: apply the changes in order. On a
failure the error is recorded; outside dry-run the whole transaction is
rolled back (rollbackTransaction throws its no-backup error when backups
were disabled) and the wrapped error is thrown; in dry-run the loop
continues. -/
def applyLoop (opts : TxnOptions) (backups : Option (List BackupEntry)) :
    List FileChange → FS → List String → List String → FS × Except String TxnResult
  | [], fs, applied, errors => (fs, .ok ⟨errors.isEmpty, applied, errors⟩)
  | ch :: rest, fs, applied, errors =>
    match applyFileChange fs ch with
    | .ok fs' => applyLoop opts backups rest fs' (applied ++ [ch.file]) errors
    | .error e =>
      let msg := "Failed to apply change to " ++ ch.file ++ ": " ++ e
      if opts.dryRun then applyLoop opts backups rest fs applied (errors ++ [msg])
      else
        match backups with
        | some bs =>
          (rollbackFiles fs bs, .error ("Transaction failed and rolled back: " ++ msg))
        | none => (fs, .error "No backup found for transaction")

/-- TransactionService.executeTransaction: back up (when enabled),
validate every change (mutating diff-fallback changes in place), abort
with the joined validation errors when any change is invalid, otherwise
apply in order. Returns the filesystem post-state, the mutated change
list (aliased with the caller's plan), and the result or thrown error. -/
def executeTransaction (fs : FS) (changes : List FileChange) (opts : TxnOptions) :
    FS × List FileChange × Except String TxnResult :=
  let backups := if opts.createBackups then some (createBackupsFn fs changes) else none
  let vr := validateChangesRun fs changes
  if vr.1.any fun r => !r.valid then
    (fs, vr.2, .error ("Validation failed: " ++
      String.intercalate ", " ((vr.1.filter fun r => !r.valid).map fun r => r.error.getD "undefined")))
  else
    let ar := applyLoop opts backups vr.2 fs [] []
    (ar.1, vr.2, ar.2)

/-- The independent per-change semantics of a dry run: every change is
attempted against the state left by its predecessors, failures are
recorded and skipped, nothing is rolled back. -/
def dryApply : List FileChange → FS → List String → List String →
    FS × List String × List String
  | [], fs, applied, errors => (fs, applied, errors)
  | ch :: rest, fs, applied, errors =>
    match applyFileChange fs ch with
    | .ok fs' => dryApply rest fs' (applied ++ [ch.file]) errors
    | .error e =>
      dryApply rest fs applied
        (errors ++ ["Failed to apply change to " ++ ch.file ++ ": " ++ e])

/-! ## FSAdapter.batchOperation -/

/-- The type tag of one batch entry. The wire format's unknown-type
fallback is unrepresentable once the tag is an enumeration. -/
inductive BatchOpType where
  | read | write | delete
deriving DecidableEq

/-- One entry of a batchOperation request. -/
structure BatchOp where
  type : BatchOpType
  path : String
  content : Option String := none
deriving DecidableEq

/-- One entry of a batchOperation response. -/
structure BatchRes where
  success : Bool
  error : Option String := none
  content : Option String := none
deriving DecidableEq

/-- Execute one batch entry: the switch body of FSAdapter.batchOperation
together with its catch clause. -/
def execBatchOp (fs : FS) (op : BatchOp) : FS × BatchRes :=
  match op.type with
  | BatchOpType.read =>
    match fsReadFileA fs op.path with
    | .ok c => (fs, ⟨true, none, some c⟩)
    | .error e => (fs, ⟨false, some e, none⟩)
  | BatchOpType.write =>
    match fsWriteFileA fs op.path (op.content.getD "") with
    | .ok fs' => (fs', ⟨true, none, none⟩)
    | .error e => (fs, ⟨false, some e, none⟩)
  | BatchOpType.delete =>
    match fsDeleteFileA fs op.path with
    | .ok fs' => (fs', ⟨true, none, none⟩)
    | .error e => (fs, ⟨false, some e, none⟩)

/-- FSAdapter.batchOperation: every entry is executed in order against
the state its predecessors left, each failure is caught locally, and one
result is pushed per entry. -/
def batchOperation (fs : FS) : List BatchOp → FS × List BatchRes
  | [] => (fs, [])
  | op :: rest =>
    let r := execBatchOp fs op
    let rr := batchOperation r.1 rest
    (rr.1, r.2 :: rr.2)

/-! ## The plan store and POST /ai/plan/:planId/apply (ai.routes.ts)

The route fetches the stored plan, optionally filters its changes by
selectedFiles, and hands the very change objects to executeTransaction;
any in-place mutation the transaction's validator performs is therefore
visible in the store afterwards. The state-passing model returns the
mutated objects from executeTransaction and merges them back into the
stored plan positionally, which is exactly what reference aliasing
produces. -/

/-- The in-memory plan store of PlannerService. -/
abbrev PlanStore := List (String × Plan)

/-- PlannerService.getPlan. -/
def storeLookup : PlanStore → String → Option Plan
  | [], _ => none
  | (p, pl) :: rest, q => if q = p then some pl else storeLookup rest q

/-- Re-keying a plan in the store (the aliased object after mutation). -/
def storeSet (store : PlanStore) (p : String) (pl : Plan) : PlanStore :=
  store.filter (fun e => decide (e.1 ≠ p)) ++ [(p, pl)]

/-- The route's selectedFiles filter: all changes when the field is
absent or empty, otherwise only changes whose file is listed. -/
def selectedPred (sel : Option (List String)) (ch : FileChange) : Bool :=
  match sel with
  | none => true
  | some files => if files.isEmpty then true else files.contains ch.file

/-- Write the mutated filtered changes back over the originals: the
positions the filter selected receive the corresponding mutated objects,
all others keep their original object. This is the functional image of
the JavaScript aliasing between plan.changes and the filtered array. -/
def mergeBack (sel : FileChange → Bool) : List FileChange → List FileChange → List FileChange
  | [], _ => []
  | ch :: rest, mutated =>
    if sel ch then
      match mutated with
      | m :: ms => m :: mergeBack sel rest ms
      | [] => ch :: mergeBack sel rest []
    else ch :: mergeBack sel rest mutated

/-- The route's responses, reduced to what the claims observe. -/
inductive RouteOutcome where
  | notFound
  | ok (r : TxnResult)
  | failed (msg : String)
deriving DecidableEq

/-- POST /ai/plan/:planId/apply: look up the plan, filter by
selectedFiles, run the transaction, and answer with its result (a thrown
error becomes the 500 response). The store afterwards reflects the
mutations the transaction performed on the plan's change objects. -/
def applyPlanRoute (store : PlanStore) (fs : FS) (planId : String)
    (sel : Option (List String)) (opts : TxnOptions) :
    PlanStore × FS × RouteOutcome :=
  match storeLookup store planId with
  | none => (store, fs, RouteOutcome.notFound)
  | some plan =>
    let sp := selectedPred sel
    let changesToApply := plan.changes.filter sp
    let tr := executeTransaction fs changesToApply opts
    let plan' := { plan with changes := mergeBack sp plan.changes tr.2.1 }
    let store' := storeSet store planId plan'
    match tr.2.2 with
    | .ok r => (store', tr.1, RouteOutcome.ok r)
    | .error m => (store', tr.1, RouteOutcome.failed m)

/-! ## Specification-side predicates

These state, independently of the loop structure of the code, when a
change or a plan is bad; the theorems below connect them to the
functions' outputs. -/

/-- A FileChange fails its change-level precondition in the sense of the
plan validator: path not allowed, create target exists, update/delete
target missing, rename source missing or newPath absent, or the
apply-method's required payload field missing (in the code's JavaScript
truthiness sense, see strFalsy). -/
def failsPrecondition (fs : FS) (ch : FileChange) : Prop :=
  isPathAllowed ch.file = false
  ∨ (ch.op = Op.create ∧ fsExistsA fs ch.file = true)
  ∨ ((ch.op = Op.update ∨ ch.op = Op.delete) ∧ fsExistsA fs ch.file = false)
  ∨ (ch.op = Op.rename ∧ (fsExistsA fs ch.file = false ∨ strFalsy ch.newPath = true))
  ∨ (ch.applyMethod = ApplyMethod.diff ∧ strFalsy ch.diff = true)
  ∨ (ch.applyMethod = ApplyMethod.replaceFile ∧ strFalsy ch.content = true)
  ∨ (ch.applyMethod = ApplyMethod.insertAtLine ∧
      (ch.insertAtLine = none ∨ strFalsy ch.content = true))

/-- A FileChange fails the transaction engine's own (weaker) pre-apply
validation: path not allowed, or an update target that cannot be read, or
a structurally invalid diff with no literal fallback content. -/
def txnChangeInvalid (fs : FS) (ch : FileChange) : Prop :=
  isPathAllowed ch.file = false
  ∨ (isPathAllowed ch.file = true ∧ ch.op = Op.update ∧ fsLookup fs ch.file = none)
  ∨ (isPathAllowed ch.file = true
      ∧ (ch.op = Op.update → fsLookup fs ch.file ≠ none)
      ∧ ch.applyMethod = ApplyMethod.diff
      ∧ strFalsy ch.diff = false
      ∧ validateDiff (ch.diff.getD "") = false
      ∧ strFalsy ch.content = true)

instance (fs : FS) (ch : FileChange) : Decidable (txnChangeInvalid fs ch) := by
  unfold txnChangeInvalid; infer_instance

/-- The depth-first search's recursion stack read bottom-to-top follows
dependency edges: each entry is a dependency of the entry below it. -/
def stackChain (steps : List Step) : List String → Prop
  | [] => True
  | [_] => True
  | a :: b :: t => stepEdge steps b a ∧ stackChain steps (b :: t)

/-- An identifier is clean when no cycle is reachable from it along
dependency edges. -/
def CleanId (steps : List Step) (x : String) : Prop :=
  ∀ y, Relation.ReflTransGen (stepEdge steps) x y →
    ¬ Relation.TransGen (stepEdge steps) y y

/-! ## Helper lemmas: splitting, substring tests, association lists -/

theorem mem_splitOnCharAux_substr {c : Char} :
    ∀ (l acc seg : List Char), seg ∈ splitOnCharAux c l acc → seg <:+: acc.reverse ++ l := by
  intro l
  induction l with
  | nil =>
    intro acc seg h
    simp only [splitOnCharAux, List.mem_singleton] at h
    subst h
    exact (List.prefix_append acc.reverse []).isInfix
  | cons a rest ih =>
    intro acc seg h
    simp only [splitOnCharAux] at h
    by_cases hac : a = c
    · rw [if_pos hac] at h
      rcases List.mem_cons.mp h with h | h
      · subst h
        exact (List.prefix_append acc.reverse (a :: rest)).isInfix
      · have h1 : seg <:+: rest := by simpa using ih [] seg h
        have h2 : rest <:+: acc.reverse ++ a :: rest := by
          have : rest <:+: (acc.reverse ++ [a]) ++ rest ++ [] := List.infix_append _ _ _
          simpa using this
        exact h1.trans h2
    · rw [if_neg hac] at h
      have := ih (a :: acc) seg h
      simpa [List.append_assoc] using this

theorem mem_splitOnChar_substr {c : Char} {l seg : List Char}
    (h : seg ∈ splitOnChar c l) : seg <:+: l := by
  simpa using mem_splitOnCharAux_substr l [] seg h

theorem listIncludes_iff {pat l : List Char} : listIncludes pat l = true ↔ pat <:+: l := by
  induction l with
  | nil => simp [listIncludes, List.isEmpty_iff]
  | cons a t ih =>
    simp only [listIncludes, Bool.or_eq_true, List.isPrefixOf_iff_prefix, ih,
      List.infix_cons_iff]

theorem not_mem_splitOnCharAux {c : Char} :
    ∀ (l acc seg : List Char), c ∉ acc → seg ∈ splitOnCharAux c l acc → c ∉ seg := by
  intro l
  induction l with
  | nil =>
    intro acc seg hacc h
    simp only [splitOnCharAux, List.mem_singleton] at h
    subst h
    simpa using hacc
  | cons a rest ih =>
    intro acc seg hacc h
    simp only [splitOnCharAux] at h
    by_cases hac : a = c
    · rw [if_pos hac] at h
      rcases List.mem_cons.mp h with h | h
      · subst h; simpa using hacc
      · exact ih [] seg (by simp) h
    · rw [if_neg hac] at h
      exact ih (a :: acc) seg (by
        simp only [List.mem_cons, not_or]
        exact ⟨fun hh => hac hh.symm, hacc⟩) h

theorem not_mem_splitOnChar {c : Char} {l seg : List Char}
    (h : seg ∈ splitOnChar c l) : c ∉ seg :=
  not_mem_splitOnCharAux l [] seg (by simp) h

theorem splitOnCharAux_no_sep {c : Char} :
    ∀ (l : List Char), c ∉ l → ∀ acc, splitOnCharAux c l acc = [acc.reverse ++ l] := by
  intro l
  induction l with
  | nil => intro _ acc; simp [splitOnCharAux]
  | cons a rest ih =>
    intro h acc
    have hac : ¬ a = c := fun hh => h (by simp [hh])
    have hrest : c ∉ rest := fun hh => h (List.mem_cons_of_mem _ hh)
    simp only [splitOnCharAux, if_neg hac]
    rw [ih hrest (a :: acc)]
    simp

theorem splitOnCharAux_sep_split {c : Char} :
    ∀ (x : List Char), c ∉ x → ∀ (t acc : List Char),
      splitOnCharAux c (x ++ c :: t) acc = (acc.reverse ++ x) :: splitOnCharAux c t [] := by
  intro x
  induction x with
  | nil => intro _ t acc; simp [splitOnCharAux]
  | cons a x' ih =>
    intro h t acc
    have hac : ¬ a = c := fun hh => h (by simp [hh])
    have hx' : c ∉ x' := fun hh => h (List.mem_cons_of_mem _ hh)
    show splitOnCharAux c (a :: (x' ++ c :: t)) acc = _
    simp only [splitOnCharAux, if_neg hac]
    rw [ih hx' t (a :: acc)]
    simp

theorem splitOnChar_joinWith {c : Char} :
    ∀ (ls : List (List Char)), (∀ s ∈ ls, c ∉ s) → ls ≠ [] →
      splitOnChar c (joinWith c ls) = ls := by
  intro ls
  induction ls with
  | nil => intro _ h; exact absurd rfl h
  | cons x rest ih =>
    intro hfree _
    cases rest with
    | nil =>
      have : c ∉ x := hfree x (by simp)
      simp only [joinWith, splitOnChar]
      rw [splitOnCharAux_no_sep x this []]
      simp
    | cons y rest' =>
      have hx : c ∉ x := hfree x (by simp)
      simp only [joinWith, splitOnChar]
      rw [splitOnCharAux_sep_split x hx (joinWith c (y :: rest')) []]
      have := ih (fun s hs => hfree s (List.mem_cons_of_mem _ hs)) (by simp)
      simp only [splitOnChar] at this
      simp [this]

theorem fsLookup_append (l₁ l₂ : FS) (q : String) :
    fsLookup (l₁ ++ l₂) q =
      match fsLookup l₁ q with
      | some c => some c
      | none => fsLookup l₂ q := by
  induction l₁ with
  | nil => simp [fsLookup]
  | cons e rest ih =>
    obtain ⟨p, c⟩ := e
    by_cases h : q = p
    · simp [fsLookup, h]
    · simp [fsLookup, h, ih]

theorem fsLookup_erase (fs : FS) (p q : String) :
    fsLookup (fsErase fs p) q = if q = p then none else fsLookup fs q := by
  induction fs with
  | nil => simp [fsLookup, fsErase]
  | cons e rest ih =>
    obtain ⟨r, c⟩ := e
    simp only [fsErase, List.filter] at ih ⊢
    by_cases hrp : r = p
    · have : decide (¬ (r, c).1 = p) = false := by simp [hrp]
      rw [this]
      by_cases hq : q = p
      · simpa [hq] using ih
      · have : fsLookup ((r, c) :: rest) q = fsLookup rest q := by
          simp [fsLookup, hrp, hq]
        rw [this]
        simpa [hq] using ih
    · have : decide (¬ (r, c).1 = p) = true := by simp [hrp]
      rw [this]
      by_cases hqr : q = r
      · simp [fsLookup, hqr, hrp]
      · simpa [fsLookup, hqr] using ih

theorem fsLookup_set (fs : FS) (p c q : String) :
    fsLookup (fsSet fs p c) q = if q = p then some c else fsLookup fs q := by
  rw [fsSet, fsLookup_append, fsLookup_erase]
  by_cases h : q = p
  · simp [h, fsLookup]
  · simp only [if_neg h]
    cases fsLookup fs q <;> simp [fsLookup, h]

/-! ## Claim C3: the path policy guard -/

/-- C3. For every input string, isPathAllowed returns false whenever the
normalized path contains a parent-directory traversal segment or is
absolute, and returns true only for paths whose normalization starts with
or exactly equals an entry of the configured allow-list; concretely,
isAllowed on "../../etc/passwd" and on "/etc/passwd" is false and on
"src/App.tsx" is true, the allow-list containing "src/". -/
theorem isPathAllowed_policy :
    (∀ p : String,
      (['.', '.'] ∈ splitOnChar '/' (normalize p).data ∨
        List.isPrefixOf ['/'] (normalize p).data = true) →
      isPathAllowed p = false)
    ∧ (∀ p : String, isPathAllowed p = true →
        ∃ a ∈ allowedPathsList,
          List.isPrefixOf a.data (normalize p).data = true ∨ normalize p = a)
    ∧ isPathAllowed "../../etc/passwd" = false
    ∧ isPathAllowed "/etc/passwd" = false
    ∧ isPathAllowed "src/App.tsx" = true
    ∧ "src/" ∈ allowedPathsList := by
  refine ⟨?_, ?_, by decide, by decide, by decide, by decide⟩
  · intro p h
    have hc : (listIncludes ['.', '.'] (normalizeChars p.data)
        || List.isPrefixOf ['/'] (normalizeChars p.data)) = true := by
      rcases h with h | h
      · have : ['.', '.'] <:+: normalizeChars p.data := mem_splitOnChar_substr h
        simp [listIncludes_iff.mpr this]
      · simpa using Or.inr h
    simp [isPathAllowed, isPathAllowedChars, hc]
  · intro p hp
    rw [isPathAllowed, isPathAllowedChars] at hp
    by_cases hc : (listIncludes ['.', '.'] (normalizeChars p.data)
        || List.isPrefixOf ['/'] (normalizeChars p.data)) = true
    · rw [if_pos hc] at hp
      exact absurd hp (by simp)
    · rw [if_neg hc, List.any_eq_true] at hp
      obtain ⟨a, ha, hcase⟩ := hp
      refine ⟨a, ha, ?_⟩
      have hcase' : List.isPrefixOf a.data (normalizeChars p.data) = true
          ∨ (normalizeChars p.data == a.data) = true := by simpa using hcase
      rcases hcase' with h | h
      · exact Or.inl h
      · right
        have hdata : (normalize p).data = a.data := by
          simpa [normalize] using (beq_iff_eq).mp h
        cases hn : normalize p
        cases a
        simp_all

/-- C3 witness: the first conjunct applied at the concrete traversal
path, its hypothesis discharged by evaluation. -/
theorem isPathAllowed_policy_witness :
    (['.', '.'] ∈ splitOnChar '/' (normalize "../../etc/passwd").data) ∧
    isPathAllowed "../../etc/passwd" = false :=
  ⟨by decide, isPathAllowed_policy.1 "../../etc/passwd" (Or.inl (by decide))⟩

/-! ## Claim C9: the allow-list check is plain string-prefix matching -/

/-- C9 counterexample: the claim as stated quantifies over every path
extending an allow-list entry that contains no ".." segment and does not
start with "/". Both "package.json..bak" (the code tests for ".." as a
substring, not as a path segment) and "src/." (normalization rewrites it
to "src", which no longer starts with "src/") satisfy the claim's
hypotheses yet are rejected. -/
theorem prefix_matching_counterexample :
    ("package.json" ∈ allowedPathsList
      ∧ ("package.json" ++ "..bak" : String) = "package.json..bak"
      ∧ ['.', '.'] ∉ splitOnChar '/' "package.json..bak".data
      ∧ List.isPrefixOf ['/'] "package.json..bak".data = false
      ∧ isPathAllowed "package.json..bak" = false)
    ∧ ("src/" ∈ allowedPathsList
      ∧ ("src/" ++ "." : String) = "src/."
      ∧ ['.', '.'] ∉ splitOnChar '/' "src/.".data
      ∧ List.isPrefixOf ['/'] "src/.".data = false
      ∧ isPathAllowed "src/." = false) := by
  decide

/-- C9 (amended). The allow-list check is plain string-prefix matching:
every already-normalized path that extends an allow-list entry, contains
no ".." substring and does not start with "/" is accepted, even when it
names a file not on the whitelist (e.g. "package.jsonX"). -/
theorem prefix_matching_accepts_extensions :
    ∀ (p a : String), a ∈ allowedPathsList →
      List.isPrefixOf a.data p.data = true →
      listIncludes ['.', '.'] p.data = false →
      List.isPrefixOf ['/'] p.data = false →
      normalizeChars p.data = p.data →
      isPathAllowed p = true := by
  intro p a ha hpre hdots hslash hnorm
  rw [isPathAllowed, isPathAllowedChars]
  simp only [hnorm, hdots, hslash, Bool.or_self, Bool.false_eq_true, if_false, if_neg,
    Bool.or_false, List.any_eq_true]
  exact ⟨a, ha, by simp [hpre]⟩

/-- C9 witness: the amended theorem applied to "package.jsonX", which
extends the allow-list entry "package.json" by one character. -/
theorem prefix_matching_accepts_extensions_witness :
    List.isPrefixOf "package.json".data "package.jsonX".data = true ∧
    isPathAllowed "package.jsonX" = true :=
  ⟨by decide,
   prefix_matching_accepts_extensions "package.jsonX" "package.json"
     (by decide) (by decide) (by decide) (by decide) (by decide)⟩

/-! ## Claim C8: batchOperation executes entries independently -/

/-- C8. batchOperation returns one result per input operation in input
order; the i-th result is exactly the outcome of executing the i-th
operation on the state left by the first i operations — so an earlier
entry's failure never prevents a later entry from being attempted — and a
failing entry leaves the filesystem untouched. -/
theorem batchOperation_independent :
    ∀ (fs : FS) (ops : List BatchOp),
      ((batchOperation fs ops).2).length = ops.length
      ∧ (∀ i : Nat, ((batchOperation fs ops).2)[i]? =
          (ops[i]?).map fun op => (execBatchOp (batchOperation fs (ops.take i)).1 op).2)
      ∧ ∀ (g : FS) (op : BatchOp),
          (execBatchOp g op).2.success = false → (execBatchOp g op).1 = g := by
  have hlen : ∀ (ops : List BatchOp) (fs : FS),
      ((batchOperation fs ops).2).length = ops.length := by
    intro ops
    induction ops with
    | nil => intro fs; simp [batchOperation]
    | cons op rest ih => intro fs; simp [batchOperation, ih]
  have hidx : ∀ (ops : List BatchOp) (fs : FS) (i : Nat),
      ((batchOperation fs ops).2)[i]? =
        (ops[i]?).map fun op => (execBatchOp (batchOperation fs (ops.take i)).1 op).2 := by
    intro ops
    induction ops with
    | nil => intro fs i; simp [batchOperation]
    | cons op rest ih =>
      intro fs i
      cases i with
      | zero => simp [batchOperation]
      | succ j => simpa [batchOperation] using ih (execBatchOp fs op).1 j
  refine fun fs ops => ⟨hlen ops fs, hidx ops fs, ?_⟩
  intro g op h
  obtain ⟨ty, path, content⟩ := op
  cases ty with
  | read => cases hr : fsReadFileA g path <;> simp [execBatchOp, hr]
  | write =>
    cases hw : fsWriteFileA g path (content.getD "") with
    | ok fs' => simp [execBatchOp, hw] at h
    | error e => simp [execBatchOp, hw]
  | delete =>
    cases hd : fsDeleteFileA g path with
    | ok fs' => simp [execBatchOp, hd] at h
    | error e => simp [execBatchOp, hd]

/-- C8 witness: the independence theorem applied at a concrete failing
delete, whose failure leaves the state unchanged; the surrounding batch
(read, failing delete, write) yields three results in order. -/
theorem batchOperation_independent_witness :
    (execBatchOp [("src/a.ts", "x")] ⟨BatchOpType.delete, "src/missing.ts", none⟩).2.success
        = false
    ∧ (execBatchOp [("src/a.ts", "x")] ⟨BatchOpType.delete, "src/missing.ts", none⟩).1
        = [("src/a.ts", "x")] :=
  ⟨by decide,
   (batchOperation_independent [] []).2.2 [("src/a.ts", "x")]
     ⟨BatchOpType.delete, "src/missing.ts", none⟩ (by decide)⟩

/-! ## Claim C7: insertAtLine semantics -/

/-- C7. For every existing file and every 1-based line number within the
file, insertAtLine inserts the given (newline-free) content as a new line
immediately before that line and preserves all original lines in order:
the resulting line list is the original's prefix of length n-1, then the
new line, then the original's remaining lines. -/
theorem insertAtLine_inserts :
    ∀ (fs : FS) (p : String) (n : Int) (x cur : String),
      fsReadFileA fs p = Except.ok cur →
      1 ≤ n → n ≤ ((splitOnChar '\n' cur.data).length : Int) →
      '\n' ∉ x.data →
      ∃ newContent : List Char,
        insertAtLineA fs p n x = Except.ok (fsSet fs p ⟨newContent⟩)
        ∧ splitOnChar '\n' newContent
            = (splitOnChar '\n' cur.data).take (n - 1).toNat
              ++ x.data :: (splitOnChar '\n' cur.data).drop (n - 1).toNat := by
  intro fs p n x cur hread h1 h2 hx
  have hallow : isPathAllowed p = true := by
    by_cases hA : isPathAllowed p = true
    · exact hA
    · rw [fsReadFileA, if_neg hA] at hread; cases hread
  set lines := splitOnChar '\n' cur.data with hlines
  have hk : (if (n - 1 : Int) < 0 then max ((lines.length : Int) + (n - 1)) 0
      else min (n - 1) (lines.length : Int)).toNat = (n - 1).toNat := by
    rw [if_neg (by omega), min_eq_left (by omega)]
  have hsplice : spliceInsert lines (n - 1) x.data
      = lines.take (n - 1).toNat ++ x.data :: lines.drop (n - 1).toNat := by
    rw [spliceInsert]
    simp only [hk, List.append_assoc, List.singleton_append]
  refine ⟨joinWith '\n' (lines.take (n - 1).toNat ++ x.data :: lines.drop (n - 1).toNat),
    ?_, ?_⟩
  · rw [insertAtLineA, hread]
    simp only [hsplice]
    rw [fsWriteFileA, if_pos hallow]
  · rw [splitOnChar_joinWith]
    · intro s hs
      rcases List.mem_append.mp hs with hs | hs
      · exact not_mem_splitOnChar (List.mem_of_mem_take hs)
      · rcases List.mem_cons.mp hs with hs | hs
        · subst hs; exact hx
        · exact not_mem_splitOnChar (List.mem_of_mem_drop hs)
    · simp

/-- C7 witness: inserting at line 2 of a 3-line file yields a 4-line file
with the new line at position 2 and the original lines preserved. -/
theorem insertAtLine_inserts_witness :
    fsReadFileA [("src/f.ts", "l1\nl2\nl3")] "src/f.ts" = Except.ok "l1\nl2\nl3"
    ∧ ∃ newContent : List Char,
        insertAtLineA [("src/f.ts", "l1\nl2\nl3")] "src/f.ts" 2 "// inserted"
            = Except.ok (fsSet [("src/f.ts", "l1\nl2\nl3")] "src/f.ts" ⟨newContent⟩)
        ∧ splitOnChar '\n' newContent
            = (splitOnChar '\n' ("l1\nl2\nl3" : String).data).take 1
              ++ ("// inserted" : String).data
                :: (splitOnChar '\n' ("l1\nl2\nl3" : String).data).drop 1 :=
  ⟨by decide,
   insertAtLine_inserts [("src/f.ts", "l1\nl2\nl3")] "src/f.ts" 2 "// inserted"
     "l1\nl2\nl3" (by decide) (by decide) (by decide) (by decide)⟩

/-! ## Claim C2: what executeTransaction actually re-validates -/

theorem validateChangesRun_fst (fs : FS) :
    ∀ changes : List FileChange,
      (validateChangesRun fs changes).1 = changes.map fun ch => (validateOneChange fs ch).1 := by
  intro changes
  induction changes with
  | nil => simp [validateChangesRun]
  | cons ch rest ih => simp [validateChangesRun, ih]

theorem validateChangesRun_snd (fs : FS) :
    ∀ changes : List FileChange,
      (validateChangesRun fs changes).2 = changes.map fun ch => (validateOneChange fs ch).2 := by
  intro changes
  induction changes with
  | nil => simp [validateChangesRun]
  | cons ch rest ih => simp [validateChangesRun, ih]

theorem validateOneChange_invalid_iff (fs : FS) (ch : FileChange) :
    ((validateOneChange fs ch).1.valid = false) ↔ txnChangeInvalid fs ch := by
  by_cases hA : isPathAllowed ch.file = true
  · rw [validateOneChange, if_neg (by simp [hA])]
    by_cases hop : ch.op = Op.update
    · rw [if_pos hop]
      rw [fsReadFileA, if_pos hA]
      cases hl : fsLookup fs ch.file with
      | none =>
        simp only [Except.map]
        constructor
        · intro _
          exact Or.inr (Or.inl ⟨hA, hop, hl⟩)
        · intro _; trivial
      | some c =>
        simp only [Except.map]
        by_cases hdm : ch.applyMethod = ApplyMethod.diff ∧ ¬ strFalsy ch.diff
        · rw [if_pos hdm]
          by_cases hvd : validateDiff (ch.diff.getD "") = true
          · rw [if_pos hvd]
            simp only [txnChangeInvalid]
            constructor
            · intro h; cases h
            · rintro (h | ⟨_, _, h⟩ | ⟨_, _, _, _, h, _⟩)
              · exact absurd hA (by simp [h])
              · rw [h] at hl; cases hl
              · exact absurd hvd (by simp [h])
          · rw [if_neg hvd]
            by_cases hct : strFalsy ch.content = true
            · rw [if_pos hct]
              constructor
              · intro _
                exact Or.inr (Or.inr ⟨hA, by simp [hl], hdm.1,
                  by simpa using hdm.2, by simpa using hvd, hct⟩)
              · intro _; trivial
            · rw [if_neg hct]
              simp only [txnChangeInvalid]
              constructor
              · intro h; cases h
              · rintro (h | ⟨_, _, h⟩ | ⟨_, _, _, _, _, h⟩)
                · exact absurd hA (by simp [h])
                · rw [h] at hl; cases hl
                · exact absurd h (by simp [hct])
        · rw [if_neg hdm]
          simp only [txnChangeInvalid]
          constructor
          · intro h; cases h
          · rintro (h | ⟨_, _, h⟩ | ⟨_, _, hm, hd, _, _⟩)
            · exact absurd hA (by simp [h])
            · rw [h] at hl; cases hl
            · exact (hdm ⟨hm, by simp [hd]⟩).elim
    · rw [if_neg hop]
      by_cases hdm : ch.applyMethod = ApplyMethod.diff ∧ ¬ strFalsy ch.diff
      · rw [if_pos hdm]
        by_cases hvd : validateDiff (ch.diff.getD "") = true
        · rw [if_pos hvd]
          simp only [txnChangeInvalid]
          constructor
          · intro h; cases h
          · rintro (h | ⟨_, h, _⟩ | ⟨_, _, _, _, h, _⟩)
            · exact absurd hA (by simp [h])
            · exact (hop h).elim
            · exact absurd hvd (by simp [h])
        · rw [if_neg hvd]
          by_cases hct : strFalsy ch.content = true
          · rw [if_pos hct]
            constructor
            · intro _
              exact Or.inr (Or.inr ⟨hA, fun h => absurd h hop, hdm.1,
                by simpa using hdm.2, by simpa using hvd, hct⟩)
            · intro _; trivial
          · rw [if_neg hct]
            simp only [txnChangeInvalid]
            constructor
            · intro h; cases h
            · rintro (h | ⟨_, h, _⟩ | ⟨_, _, _, _, _, h⟩)
              · exact absurd hA (by simp [h])
              · exact (hop h).elim
              · exact absurd h (by simp [hct])
      · rw [if_neg hdm]
        simp only [txnChangeInvalid]
        constructor
        · intro h; cases h
        · rintro (h | ⟨_, h, _⟩ | ⟨_, _, hm, hd, _, _⟩)
          · exact absurd hA (by simp [h])
          · exact (hop h).elim
          · exact (hdm ⟨hm, by simp [hd]⟩).elim
  · rw [validateOneChange, if_pos (by simpa using hA)]
    simp only [txnChangeInvalid]
    constructor
    · intro _
      exact Or.inl (by simpa using hA)
    · intro _; trivial

/-- C2 (amended). executeTransaction's pre-apply validation is not the
full change-level validation of the plan validator: it checks only the
path policy, the readability of update targets, and the structural diff
check with replaceFile fallback (txnChangeInvalid characterizes exactly
when a change fails it); when any change fails, the whole transaction
fails before any filesystem write, returning the pre-state unchanged. -/
theorem txn_validation_aborts :
    (∀ (fs : FS) (changes : List FileChange) (opts : TxnOptions),
      (∃ ch ∈ changes, txnChangeInvalid fs ch) →
      (executeTransaction fs changes opts).1 = fs
      ∧ ∃ m, (executeTransaction fs changes opts).2.2 = Except.error m)
    ∧ ∀ (fs : FS) (ch : FileChange),
        ((validateOneChange fs ch).1.valid = false) ↔ txnChangeInvalid fs ch := by
  refine ⟨?_, validateOneChange_invalid_iff⟩
  intro fs changes opts hbad
  have hany : ((validateChangesRun fs changes).1.any fun r => !r.valid) = true := by
    rw [validateChangesRun_fst, List.any_eq_true]
    obtain ⟨ch, hch, hinv⟩ := hbad
    refine ⟨(validateOneChange fs ch).1, List.mem_map_of_mem _ hch, ?_⟩
    simp [(validateOneChange_invalid_iff fs ch).mpr hinv]
  refine ⟨?_, ?_⟩
  · simp [executeTransaction, hany]
  · cases hE : (executeTransaction fs changes opts).2.2 with
    | error m => exact ⟨m, rfl⟩
    | ok r =>
      rw [executeTransaction] at hE
      simp [hany] at hE

/-- C2 witness: a change the transaction validator rejects (an update of
a missing file) makes executeTransaction abort with the filesystem
untouched. -/
theorem txn_validation_aborts_witness :
    txnChangeInvalid [("src/a.ts", "x")]
        ⟨"src/missing.ts", Op.update, ApplyMethod.replaceFile, some "y", none, none, none⟩
    ∧ ((executeTransaction [("src/a.ts", "x")]
          [⟨"src/missing.ts", Op.update, ApplyMethod.replaceFile, some "y", none, none, none⟩]
          ⟨true, false, false⟩).1 = [("src/a.ts", "x")]
        ∧ ∃ m, (executeTransaction [("src/a.ts", "x")]
            [⟨"src/missing.ts", Op.update, ApplyMethod.replaceFile, some "y", none, none, none⟩]
            ⟨true, false, false⟩).2.2 = Except.error m) :=
  ⟨by decide,
   txn_validation_aborts.1 [("src/a.ts", "x")]
     [⟨"src/missing.ts", Op.update, ApplyMethod.replaceFile, some "y", none, none, none⟩]
     ⟨true, false, false⟩
     ⟨⟨"src/missing.ts", Op.update, ApplyMethod.replaceFile, some "y", none, none, none⟩,
      by decide, by decide⟩⟩

/-- C2 counterexample: the claim says executeTransaction re-runs the full
change-level validation of the plan validator before applying. A create
change whose target already exists is rejected by the plan validator, yet
executeTransaction accepts it and overwrites the file. -/
theorem txn_validation_counterexample :
    plannerValidateFileChange [("src/a.ts", "x")]
        ⟨"src/a.ts", Op.create, ApplyMethod.replaceFile, some "y", none, none, none⟩
      = some "File already exists"
    ∧ executeTransaction [("src/a.ts", "x")]
        [⟨"src/a.ts", Op.create, ApplyMethod.replaceFile, some "y", none, none, none⟩]
        ⟨true, false, false⟩
      = ([("src/a.ts", "y")],
         [⟨"src/a.ts", Op.create, ApplyMethod.replaceFile, some "y", none, none, none⟩],
         Except.ok ⟨true, ["src/a.ts"], []⟩) := by
  decide

/-! ## Claim C6: dry-run semantics -/

theorem applyLoop_dryRun (opts : TxnOptions) (hdry : opts.dryRun = true)
    (backups : Option (List BackupEntry)) :
    ∀ (l : List FileChange) (fs : FS) (applied errors : List String),
      applyLoop opts backups l fs applied errors =
        ((dryApply l fs applied errors).1,
         Except.ok ⟨(dryApply l fs applied errors).2.2.isEmpty,
                    (dryApply l fs applied errors).2.1,
                    (dryApply l fs applied errors).2.2⟩) := by
  intro l
  induction l with
  | nil => intro fs applied errors; simp [applyLoop, dryApply]
  | cons ch rest ih =>
    intro fs applied errors
    cases hap : applyFileChange fs ch with
    | ok fs' =>
      rw [applyLoop, dryApply]
      simp only [hap]
      exact ih fs' (applied ++ [ch.file]) errors
    | error e =>
      rw [applyLoop, dryApply]
      simp only [hap, hdry, if_true]
      exact ih fs applied _

/-- C6 (amended). Under dryRun, once validation passes, executeTransaction
behaves exactly like the independent per-change semantics dryApply: a
failing change does not trigger rollback and does not abort the remaining
changes, the result is the plain record (never a thrown rollback error),
and appliedFiles lists the successfully attempted files — but the
successful changes DO mutate the filesystem (dry-run executes them). -/
theorem dryRun_no_rollback :
    ∀ (fs : FS) (changes : List FileChange) (opts : TxnOptions),
      opts.dryRun = true →
      ((validateChangesRun fs changes).1.all fun r => r.valid) = true →
      executeTransaction fs changes opts =
        ((dryApply (validateChangesRun fs changes).2 fs [] []).1,
         (validateChangesRun fs changes).2,
         Except.ok ⟨(dryApply (validateChangesRun fs changes).2 fs [] []).2.2.isEmpty,
                    (dryApply (validateChangesRun fs changes).2 fs [] []).2.1,
                    (dryApply (validateChangesRun fs changes).2 fs [] []).2.2⟩) := by
  intro fs changes opts hdry hval
  have hany : ((validateChangesRun fs changes).1.any fun r => !r.valid) = false := by
    rw [List.all_eq_true] at hval
    by_cases h : ((validateChangesRun fs changes).1.any fun r => !r.valid) = true
    · rw [List.any_eq_true] at h
      obtain ⟨r, hr, hbad⟩ := h
      have := hval r hr
      simp [this] at hbad
    · simpa using h
  have happly := applyLoop_dryRun opts hdry
      (if opts.createBackups then some (createBackupsFn fs changes) else none)
      (validateChangesRun fs changes).2 fs [] []
  rw [executeTransaction]
  simp only [hany, Bool.false_eq_true, if_false, happly]

/-- C6 witness: the amended theorem at a concrete dry run whose first
change (a rename without newPath) fails and whose second change is still
applied. -/
theorem dryRun_no_rollback_witness :
    ((validateChangesRun ([] : FS)
        [⟨"src/b.ts", Op.rename, ApplyMethod.replaceFile, none, none, none, none⟩,
         ⟨"src/a.ts", Op.create, ApplyMethod.replaceFile, some "x", none, none, none⟩]).1.all
      fun r => r.valid) = true
    ∧ executeTransaction []
        [⟨"src/b.ts", Op.rename, ApplyMethod.replaceFile, none, none, none, none⟩,
         ⟨"src/a.ts", Op.create, ApplyMethod.replaceFile, some "x", none, none, none⟩]
        ⟨false, false, true⟩
      = ((dryApply (validateChangesRun []
            [⟨"src/b.ts", Op.rename, ApplyMethod.replaceFile, none, none, none, none⟩,
             ⟨"src/a.ts", Op.create, ApplyMethod.replaceFile, some "x", none, none, none⟩]).2
            [] [] []).1,
         (validateChangesRun []
            [⟨"src/b.ts", Op.rename, ApplyMethod.replaceFile, none, none, none, none⟩,
             ⟨"src/a.ts", Op.create, ApplyMethod.replaceFile, some "x", none, none, none⟩]).2,
         Except.ok ⟨(dryApply (validateChangesRun []
              [⟨"src/b.ts", Op.rename, ApplyMethod.replaceFile, none, none, none, none⟩,
               ⟨"src/a.ts", Op.create, ApplyMethod.replaceFile, some "x", none, none, none⟩]).2
              [] [] []).2.2.isEmpty,
            (dryApply (validateChangesRun []
              [⟨"src/b.ts", Op.rename, ApplyMethod.replaceFile, none, none, none, none⟩,
               ⟨"src/a.ts", Op.create, ApplyMethod.replaceFile, some "x", none, none, none⟩]).2
              [] [] []).2.1,
            (dryApply (validateChangesRun []
              [⟨"src/b.ts", Op.rename, ApplyMethod.replaceFile, none, none, none, none⟩,
               ⟨"src/a.ts", Op.create, ApplyMethod.replaceFile, some "x", none, none, none⟩]).2
              [] [] []).2.2⟩) :=
  ⟨by decide,
   dryRun_no_rollback []
     [⟨"src/b.ts", Op.rename, ApplyMethod.replaceFile, none, none, none, none⟩,
      ⟨"src/a.ts", Op.create, ApplyMethod.replaceFile, some "x", none, none, none⟩]
     ⟨false, false, true⟩ (by decide) (by decide)⟩

/-- C6 counterexample: the claim asserts the filesystem is not mutated by
a dry-run transaction. A dry run with a failing first change (rename
without newPath) and a succeeding create indeed skips rollback and
continues, but the create writes the file: the filesystem changes. -/
theorem dryRun_counterexample :
    fsLookup ([] : FS) "src/a.ts" = none
    ∧ executeTransaction []
        [⟨"src/b.ts", Op.rename, ApplyMethod.replaceFile, none, none, none, none⟩,
         ⟨"src/a.ts", Op.create, ApplyMethod.replaceFile, some "x", none, none, none⟩]
        ⟨false, false, true⟩
      = ([("src/a.ts", "x")],
         [⟨"src/b.ts", Op.rename, ApplyMethod.replaceFile, none, none, none, none⟩,
          ⟨"src/a.ts", Op.create, ApplyMethod.replaceFile, some "x", none, none, none⟩],
         Except.ok ⟨false, ["src/a.ts"],
           ["Failed to apply change to src/b.ts: New path required for rename operation"]⟩)
    ∧ fsLookup [("src/a.ts", "x")] "src/a.ts" = some "x" := by
  decide

/-! ## Claim C10: validation mutates the stored plan's change objects -/

theorem storeLookup_append (l₁ l₂ : PlanStore) (q : String) :
    storeLookup (l₁ ++ l₂) q =
      match storeLookup l₁ q with
      | some pl => some pl
      | none => storeLookup l₂ q := by
  induction l₁ with
  | nil => simp [storeLookup]
  | cons e rest ih =>
    obtain ⟨p, pl⟩ := e
    by_cases h : q = p
    · simp [storeLookup, h]
    · simp [storeLookup, h, ih]

theorem storeLookup_filter_ne (store : PlanStore) (p q : String) :
    storeLookup (store.filter fun e => decide (e.1 ≠ p)) q
      = if q = p then none else storeLookup store q := by
  induction store with
  | nil => simp [storeLookup]
  | cons e rest ih =>
    obtain ⟨r, c⟩ := e
    simp only [List.filter] at ih ⊢
    by_cases hrp : r = p
    · have : decide (¬ (r, c).1 = p) = false := by simp [hrp]
      rw [this]
      by_cases hq : q = p
      · simpa [hq] using ih
      · have : storeLookup ((r, c) :: rest) q = storeLookup rest q := by
          simp [storeLookup, hrp, hq]
        rw [this]
        simpa [hq] using ih
    · have : decide (¬ (r, c).1 = p) = true := by simp [hrp]
      rw [this]
      by_cases hqr : q = r
      · simp [storeLookup, hqr, hrp]
      · simpa [storeLookup, hqr] using ih

theorem storeLookup_set_self (store : PlanStore) (p : String) (pl : Plan) :
    storeLookup (storeSet store p pl) p = some pl := by
  rw [storeSet, storeLookup_append, storeLookup_filter_ne]
  simp [storeLookup]

theorem filter_selectedPred_none (l : List FileChange) :
    l.filter (selectedPred none) = l := by
  induction l with
  | nil => rfl
  | cons ch rest ih => simp [List.filter, selectedPred, ih]

theorem mergeBack_selectedPred_none :
    ∀ (l m : List FileChange), m.length = l.length →
      mergeBack (selectedPred none) l m = m := by
  intro l
  induction l with
  | nil =>
    intro m hm
    cases m
    · rfl
    · cases hm
  | cons ch rest ih =>
    intro m hm
    cases m with
    | nil => cases hm
    | cons m₀ ms =>
      show mergeBack (selectedPred none) (ch :: rest) (m₀ :: ms) = m₀ :: ms
      rw [mergeBack]
      have : selectedPred none ch = true := rfl
      rw [this]
      simp only [if_true]
      rw [ih ms (by simpa using hm)]

theorem executeTransaction_changes (fs : FS) (changes : List FileChange) (opts : TxnOptions) :
    (executeTransaction fs changes opts).2.1 = (validateChangesRun fs changes).2 := by
  rw [executeTransaction]
  by_cases h : ((validateChangesRun fs changes).1.any fun r => !r.valid) = true
  · simp [h]
  · simp only [Bool.not_eq_true] at h
    simp [h]

theorem validateOneChange_diff_fallback (fs : FS) (ch : FileChange)
    (hA : isPathAllowed ch.file = true)
    (hup : ch.op = Op.update → fsLookup fs ch.file ≠ none)
    (hm : ch.applyMethod = ApplyMethod.diff)
    (hd : strFalsy ch.diff = false)
    (hvd : validateDiff (ch.diff.getD "") = false)
    (hc : strFalsy ch.content = false) :
    validateOneChange fs ch = (⟨true, none⟩, { ch with applyMethod := ApplyMethod.replaceFile }) := by
  rw [validateOneChange, if_neg (by simp [hA])]
  have hpre : (if ch.op = Op.update then (fsReadFileA fs ch.file).map fun _ => () else .ok ())
      = Except.ok () := by
    by_cases hop : ch.op = Op.update
    · rw [if_pos hop]
      rw [fsReadFileA, if_pos hA]
      cases hl : fsLookup fs ch.file with
      | none => exact absurd hl (hup hop)
      | some c => simp [Except.map]
    · rw [if_neg hop]
  rw [hpre]
  rw [if_pos ⟨hm, by simp [hd]⟩, if_neg (by simp [hvd]), if_neg (by simp [hc])]

/-- C10. The transaction's validation phase mutates its input: a change
with apply-method diff whose diff text fails the structural check but
which carries literal content has its applyMethod rewritten to
replaceFile in place, and because the apply route hands the stored plan's
own change objects to executeTransaction, the rewrite persists in the
plan store after the call — a later re-apply of the same plan uses
replaceFile instead of diff. -/
theorem validation_mutates_stored_plan :
    ∀ (store : PlanStore) (fs : FS) (pid : String) (plan : Plan) (opts : TxnOptions)
      (j : Nat) (ch : FileChange),
      storeLookup store pid = some plan →
      plan.changes[j]? = some ch →
      isPathAllowed ch.file = true →
      (ch.op = Op.update → fsLookup fs ch.file ≠ none) →
      ch.applyMethod = ApplyMethod.diff →
      strFalsy ch.diff = false →
      validateDiff (ch.diff.getD "") = false →
      strFalsy ch.content = false →
      ∃ plan' : Plan,
        storeLookup (applyPlanRoute store fs pid none opts).1 pid = some plan'
        ∧ plan'.changes[j]? = some { ch with applyMethod := ApplyMethod.replaceFile } := by
  intro store fs pid plan opts j ch hstore hj hA hup hm hd hvd hc
  have hchanges : (executeTransaction fs plan.changes opts).2.1
      = plan.changes.map fun c => (validateOneChange fs c).2 := by
    rw [executeTransaction_changes, validateChangesRun_snd]
  have hroute : (applyPlanRoute store fs pid none opts).1
      = storeSet store pid
          { plan with changes := plan.changes.map fun c => (validateOneChange fs c).2 } := by
    rw [applyPlanRoute, hstore]
    simp only [filter_selectedPred_none]
    rw [mergeBack_selectedPred_none plan.changes _ (by simp [hchanges]), hchanges]
    cases hres : (executeTransaction fs plan.changes opts).2.2 <;> simp [hchanges]
  refine ⟨{ plan with changes := plan.changes.map fun c => (validateOneChange fs c).2 },
    ?_, ?_⟩
  · rw [hroute, storeLookup_set_self]
  · show (plan.changes.map fun c => (validateOneChange fs c).2)[j]? = _
    rw [List.getElem?_map, hj]
    simp [validateOneChange_diff_fallback fs ch hA hup hm hd hvd hc]

/-- C10 witness: a concrete stored plan with one bad-diff change; after
the apply route runs, the stored plan's change uses replaceFile. -/
theorem validation_mutates_stored_plan_witness :
    storeLookup
        [("p1", ⟨"p1", [],
          [⟨"src/a.ts", Op.update, ApplyMethod.diff, some "new content",
            some "not a real diff", none, none⟩]⟩)] "p1"
      = some ⟨"p1", [],
          [⟨"src/a.ts", Op.update, ApplyMethod.diff, some "new content",
            some "not a real diff", none, none⟩]⟩
    ∧ ∃ plan' : Plan,
        storeLookup (applyPlanRoute
            [("p1", ⟨"p1", [],
              [⟨"src/a.ts", Op.update, ApplyMethod.diff, some "new content",
                some "not a real diff", none, none⟩]⟩)]
            [("src/a.ts", "old")] "p1" none ⟨true, false, false⟩).1 "p1"
          = some plan'
        ∧ plan'.changes[0]? = some ⟨"src/a.ts", Op.update, ApplyMethod.replaceFile,
            some "new content", some "not a real diff", none, none⟩ :=
  ⟨by decide,
   validation_mutates_stored_plan
     [("p1", ⟨"p1", [],
       [⟨"src/a.ts", Op.update, ApplyMethod.diff, some "new content",
         some "not a real diff", none, none⟩]⟩)]
     [("src/a.ts", "old")] "p1"
     ⟨"p1", [],
       [⟨"src/a.ts", Op.update, ApplyMethod.diff, some "new content",
         some "not a real diff", none, none⟩]⟩
     ⟨true, false, false⟩ 0
     ⟨"src/a.ts", Op.update, ApplyMethod.diff, some "new content",
       some "not a real diff", none, none⟩
     (by decide) (by decide) (by decide) (by decide) (by decide) (by decide)
     (by decide) (by decide)⟩

/-! ## Claim C1: what rollback actually restores -/

theorem createBackupsFn_mem (fs : FS) :
    ∀ (changes : List FileChange) (b : BackupEntry), b ∈ createBackupsFn fs changes →
      (∃ ch ∈ changes, b.path = ch.file)
      ∧ b.existed = fsExistsA fs b.path
      ∧ (b.existed = true → fsLookup fs b.path = some b.content)
      ∧ (b.existed = false → b.content = "") := by
  intro changes
  induction changes with
  | nil => intro b hb; cases hb
  | cons ch rest ih =>
    intro b hb
    rw [createBackupsFn] at hb
    rcases List.mem_append.mp hb with hb | hb
    · by_cases hop : ch.op = Op.update ∨ ch.op = Op.delete
      · rw [if_pos hop] at hb
        by_cases hex : fsExistsA fs ch.file = true
        · rw [if_pos hex] at hb
          cases hread : fsReadFileA fs ch.file with
          | ok c =>
            rw [hread] at hb
            have hbeq : b = ⟨ch.file, c, true⟩ := List.mem_singleton.mp hb
            subst hbeq
            have hlk : fsLookup fs ch.file = some c := by
              rw [fsReadFileA] at hread
              have hA : isPathAllowed ch.file = true := by
                have hex' := hex
                simp only [fsExistsA, Bool.and_eq_true] at hex'
                exact hex'.1
              rw [if_pos hA] at hread
              cases hl : fsLookup fs ch.file with
              | none => rw [hl] at hread; cases hread
              | some c' =>
                rw [hl] at hread
                cases hread
                rfl
            exact ⟨⟨ch, by simp, rfl⟩, hex.symm, fun _ => hlk, fun h => by simp at h⟩
          | error e => rw [hread] at hb; cases hb
        · rw [if_neg hex] at hb
          have hbeq : b = ⟨ch.file, "", false⟩ := List.mem_singleton.mp hb
          subst hbeq
          exact ⟨⟨ch, by simp, rfl⟩, by simpa using hex, fun h => by simp at h, fun _ => rfl⟩
      · rw [if_neg hop] at hb; cases hb
    · obtain ⟨hch, hrest⟩ := ih b hb
      obtain ⟨ch', hch', hpath⟩ := hch
      exact ⟨⟨ch', List.mem_cons_of_mem _ hch', hpath⟩, hrest⟩

theorem rollbackStep_lookup_ne (fs : FS) (b : BackupEntry) (q : String) (h : q ≠ b.path) :
    fsLookup (rollbackStep fs b) q = fsLookup fs q := by
  rw [rollbackStep]
  by_cases he : b.existed = true
  · rw [if_pos he, fsWriteFileA]
    by_cases hA : isPathAllowed b.path = true
    · rw [if_pos hA]
      show fsLookup (fsSet fs b.path b.content) q = fsLookup fs q
      rw [fsLookup_set, if_neg h]
    · rw [if_neg hA]
  · rw [if_neg he]
    by_cases hex : fsExistsA fs b.path = true
    · rw [if_pos hex, fsDeleteFileA]
      by_cases hA : isPathAllowed b.path = true
      · rw [if_pos hA]
        cases hl : fsLookup fs b.path with
        | none => rfl
        | some c =>
          show fsLookup (fsErase fs b.path) q = fsLookup fs q
          rw [fsLookup_erase, if_neg h]
      · rw [if_neg hA]
    · rw [if_neg hex]

theorem rollbackStep_lookup_self (fs : FS) (b : BackupEntry)
    (hA : isPathAllowed b.path = true) :
    fsLookup (rollbackStep fs b) b.path = if b.existed then some b.content else none := by
  rw [rollbackStep]
  by_cases he : b.existed = true
  · rw [if_pos he, if_pos he, fsWriteFileA, if_pos hA]
    show fsLookup (fsSet fs b.path b.content) b.path = some b.content
    rw [fsLookup_set, if_pos rfl]
  · rw [if_neg he, if_neg he]
    by_cases hex : fsExistsA fs b.path = true
    · rw [if_pos hex, fsDeleteFileA, if_pos hA]
      cases hl : fsLookup fs b.path with
      | none =>
        rw [fsExistsA, hl] at hex
        simp at hex
      | some c =>
        show fsLookup (fsErase fs b.path) b.path = none
        rw [fsLookup_erase, if_pos rfl]
    · rw [if_neg hex]
      rw [fsExistsA, hA] at hex
      cases hl : fsLookup fs b.path with
      | none => rfl
      | some c => rw [hl] at hex; simp at hex

theorem rollbackFiles_lookup_not_mem :
    ∀ (bs : List BackupEntry) (fs : FS) (q : String), (∀ b ∈ bs, q ≠ b.path) →
      fsLookup (rollbackFiles fs bs) q = fsLookup fs q := by
  intro bs
  induction bs with
  | nil => intro fs q _; rfl
  | cons c rest ih =>
    intro fs q h
    rw [rollbackFiles, ih _ _ fun b hb => h b (List.mem_cons_of_mem _ hb)]
    exact rollbackStep_lookup_ne fs c q (h c (by simp))

theorem rollbackFiles_restores :
    ∀ (bs : List BackupEntry) (fs : FS) (b : BackupEntry), b ∈ bs →
      (∀ b' ∈ bs, isPathAllowed b'.path = true) →
      (∀ b₁ ∈ bs, ∀ b₂ ∈ bs, b₁.path = b₂.path →
        b₁.existed = b₂.existed ∧ b₁.content = b₂.content) →
      fsLookup (rollbackFiles fs bs) b.path = if b.existed then some b.content else none := by
  intro bs
  induction bs with
  | nil => intro fs b hb; cases hb
  | cons c rest ih =>
    intro fs b hb hallow hagree
    rcases List.mem_cons.mp hb with hbc | hbr
    · subst hbc
      by_cases hex : ∃ b' ∈ rest, b'.path = b.path
      · obtain ⟨b', hb', hpath⟩ := hex
        have hres := ih (rollbackStep fs b) b' hb'
          (fun x hx => hallow x (List.mem_cons_of_mem _ hx))
          (fun x hx y hy => hagree x (List.mem_cons_of_mem _ hx) y (List.mem_cons_of_mem _ hy))
        have hag := hagree b' (List.mem_cons_of_mem _ hb') b (by simp) hpath
        rw [rollbackFiles, ← hpath, hres, hag.1, hag.2]
      · rw [rollbackFiles,
          rollbackFiles_lookup_not_mem rest (rollbackStep fs b) b.path
            (fun x hx hpp => hex ⟨x, hx, hpp.symm⟩)]
        exact rollbackStep_lookup_self fs b (hallow b (by simp))
    · exact ih (rollbackStep fs c) b hbr
        (fun x hx => hallow x (List.mem_cons_of_mem _ hx))
        (fun x hx y hy => hagree x (List.mem_cons_of_mem _ hx) y (List.mem_cons_of_mem _ hy))

theorem applyLoop_error_rollback (opts : TxnOptions) (hdry : opts.dryRun = false)
    (bs : List BackupEntry) :
    ∀ (l : List FileChange) (fs : FS) (applied errors : List String) (fs' : FS) (msg : String),
      applyLoop opts (some bs) l fs applied errors = (fs', Except.error msg) →
      ∃ fsMid, fs' = rollbackFiles fsMid bs := by
  intro l
  induction l with
  | nil =>
    intro fs applied errors fs' msg h
    rw [applyLoop] at h
    exact absurd (congrArg (fun t => t.2) h) (by simp)
  | cons ch rest ih =>
    intro fs applied errors fs' msg h
    cases hap : applyFileChange fs ch with
    | ok g =>
      rw [applyLoop] at h
      simp only [hap] at h
      exact ih g (applied ++ [ch.file]) errors fs' msg h
    | error e =>
      rw [applyLoop] at h
      simp only [hap, hdry, Bool.false_eq_true, if_false] at h
      exact ⟨fs, (congrArg Prod.fst h).symm⟩

theorem validateOneChange_valid_allowed (fs : FS) (ch : FileChange)
    (h : (validateOneChange fs ch).1.valid = true) : isPathAllowed ch.file = true := by
  by_cases hA : isPathAllowed ch.file = true
  · exact hA
  · rw [validateOneChange, if_pos (by simpa using hA)] at h
    exact absurd h (by simp)

theorem isPrefixOf_cons_ne {a b : Char} {l₁ l₂ : List Char} (h : ¬ a = b) :
    List.isPrefixOf (a :: l₁) (b :: l₂) = false := by
  simp [List.isPrefixOf, h]

theorem validation_error_not_rolled_back_msg (t : String) :
    List.isPrefixOf "Transaction failed and rolled back".data
      ("Validation failed: " ++ t).data = false := by
  rw [String.data_append]
  have h1 : "Transaction failed and rolled back".data
      = 'T' :: "ransaction failed and rolled back".data := rfl
  have h2 : "Validation failed: ".data = 'V' :: "alidation failed: ".data := rfl
  rw [h1, h2, List.cons_append]
  exact isPrefixOf_cons_ne (by decide)

/-- C1 (amended). With createBackups enabled and dryRun disabled, when a
change fails during the apply phase and executeTransaction throws its
rolled-back error, every file captured in the backup set — i.e. the
targets of update and delete changes — ends with content equal to its
pre-transaction content. (Files touched only by create or rename changes
are not in the backup set and are NOT restored: a file created by an
earlier change of the same transaction remains on disk.) -/
theorem txn_rollback_restores_backups :
    ∀ (fs : FS) (changes : List FileChange) (opts : TxnOptions)
      (fs' : FS) (cs' : List FileChange) (msg : String),
      opts.createBackups = true →
      opts.dryRun = false →
      executeTransaction fs changes opts = (fs', cs', Except.error msg) →
      List.isPrefixOf "Transaction failed and rolled back".data msg.data = true →
      ∀ b ∈ createBackupsFn fs changes, fsLookup fs' b.path = fsLookup fs b.path := by
  intro fs changes opts fs' cs' msg hbk hdry hrun hpre b hb
  rw [executeTransaction] at hrun
  by_cases hval : ((validateChangesRun fs changes).1.any fun r => !r.valid) = true
  · rw [if_pos hval] at hrun
    have hmsg := congrArg (fun t => t.2.2) hrun
    simp only at hmsg
    cases hmsg
    rw [validation_error_not_rolled_back_msg] at hpre
    cases hpre
  · rw [if_neg hval] at hrun
    simp only [hbk, if_true] at hrun
    have h1 := congrArg Prod.fst hrun
    have h2 := congrArg (fun t => t.2.2) hrun
    simp only at h1 h2
    have hloop : applyLoop opts (some (createBackupsFn fs changes))
        (validateChangesRun fs changes).2 fs [] [] = (fs', Except.error msg) := by
      rw [← h1, ← h2]
    obtain ⟨fsMid, hroll⟩ :=
      applyLoop_error_rollback opts hdry (createBackupsFn fs changes)
        (validateChangesRun fs changes).2 fs [] [] fs' msg hloop
    have hall : ∀ r ∈ (validateChangesRun fs changes).1, r.valid = true := by
      intro r hr
      by_cases hv : r.valid = true
      · exact hv
      · exact absurd (List.any_eq_true.mpr ⟨r, hr, by simp [hv]⟩) hval
    have hallowed : ∀ b' ∈ createBackupsFn fs changes, isPathAllowed b'.path = true := by
      intro b' hb'
      obtain ⟨⟨ch, hch, hpath⟩, _, _, _⟩ := createBackupsFn_mem fs changes b' hb'
      have hr : (validateOneChange fs ch).1 ∈ (validateChangesRun fs changes).1 := by
        rw [validateChangesRun_fst]
        exact List.mem_map_of_mem _ hch
      rw [hpath]
      exact validateOneChange_valid_allowed fs ch (hall _ hr)
    have hagree : ∀ b₁ ∈ createBackupsFn fs changes, ∀ b₂ ∈ createBackupsFn fs changes,
        b₁.path = b₂.path → b₁.existed = b₂.existed ∧ b₁.content = b₂.content := by
      intro b₁ hb₁ b₂ hb₂ hpath
      obtain ⟨_, hex₁, hcon₁, hemp₁⟩ := createBackupsFn_mem fs changes b₁ hb₁
      obtain ⟨_, hex₂, hcon₂, hemp₂⟩ := createBackupsFn_mem fs changes b₂ hb₂
      have hexeq : b₁.existed = b₂.existed := by rw [hex₁, hex₂, hpath]
      refine ⟨hexeq, ?_⟩
      by_cases he : b₁.existed = true
      · have h₁ := hcon₁ he
        have h₂ := hcon₂ (by rw [← hexeq]; exact he)
        rw [hpath] at h₁
        rw [h₁] at h₂
        exact (Option.some.injEq _ _ ▸ h₂ : _)
      · rw [hemp₁ (by simpa using he), hemp₂ (by rw [← hexeq]; simpa using he)]
    have hrestore := rollbackFiles_restores (createBackupsFn fs changes) fsMid b hb
      hallowed hagree
    obtain ⟨_, hex, hcon, _⟩ := createBackupsFn_mem fs changes b hb
    rw [hroll, hrestore]
    by_cases he : b.existed = true
    · rw [if_pos he, hcon he]
    · rw [if_neg he]
      have : fsExistsA fs b.path = false := by rw [← hex]; simpa using he
      rw [fsExistsA, hallowed b hb] at this
      simp only [Bool.true_and] at this
      cases hl : fsLookup fs b.path with
      | none => rfl
      | some c => rw [hl] at this; simp at this

/-- C1 witness: the amended theorem at a concrete three-change
transaction (create, failing diff update, create) with backups enabled;
the backed-up update target keeps its pre-transaction content. -/
theorem txn_rollback_restores_backups_witness :
    executeTransaction [("src/old.ts", "orig")]
        [⟨"src/new.ts", Op.create, ApplyMethod.replaceFile, some "x", none, none, none⟩,
         ⟨"src/old.ts", Op.update, ApplyMethod.diff, none, some "@@ -1 +1 @@", none, none⟩,
         ⟨"src/other.ts", Op.create, ApplyMethod.replaceFile, some "z", none, none, none⟩]
        ⟨true, false, false⟩
      = ([("src/new.ts", "x"), ("src/old.ts", "orig")],
         [⟨"src/new.ts", Op.create, ApplyMethod.replaceFile, some "x", none, none, none⟩,
          ⟨"src/old.ts", Op.update, ApplyMethod.diff, none, some "@@ -1 +1 @@", none, none⟩,
          ⟨"src/other.ts", Op.create, ApplyMethod.replaceFile, some "z", none, none, none⟩],
         Except.error ("Transaction failed and rolled back: " ++
           "Failed to apply change to src/old.ts: " ++
           "Diff application not yet implemented - use replaceFile method"))
    ∧ fsLookup [("src/new.ts", "x"), ("src/old.ts", "orig")] "src/old.ts"
        = fsLookup [("src/old.ts", "orig")] "src/old.ts" :=
  ⟨by decide,
   txn_rollback_restores_backups [("src/old.ts", "orig")]
     [⟨"src/new.ts", Op.create, ApplyMethod.replaceFile, some "x", none, none, none⟩,
      ⟨"src/old.ts", Op.update, ApplyMethod.diff, none, some "@@ -1 +1 @@", none, none⟩,
      ⟨"src/other.ts", Op.create, ApplyMethod.replaceFile, some "z", none, none, none⟩]
     ⟨true, false, false⟩
     [("src/new.ts", "x"), ("src/old.ts", "orig")]
     [⟨"src/new.ts", Op.create, ApplyMethod.replaceFile, some "x", none, none, none⟩,
      ⟨"src/old.ts", Op.update, ApplyMethod.diff, none, some "@@ -1 +1 @@", none, none⟩,
      ⟨"src/other.ts", Op.create, ApplyMethod.replaceFile, some "z", none, none, none⟩]
     ("Transaction failed and rolled back: " ++
       "Failed to apply change to src/old.ts: " ++
       "Diff application not yet implemented - use replaceFile method")
     (by decide) (by decide) (by decide) (by decide)
     ⟨"src/old.ts", "orig", true⟩ (by decide)⟩

/-- C1 counterexample: in a backed-up transaction whose second of three
changes fails during apply, the file created by the first change is NOT
removed by rollback — its content survives even though it did not exist
before the transaction — so the post-state differs from the pre-state. -/
theorem txn_rollback_counterexample :
    fsLookup [("src/old.ts", "orig")] "src/new.ts" = none
    ∧ executeTransaction [("src/old.ts", "orig")]
        [⟨"src/new.ts", Op.create, ApplyMethod.replaceFile, some "x", none, none, none⟩,
         ⟨"src/old.ts", Op.update, ApplyMethod.diff, none, some "@@ -1 +1 @@", none, none⟩,
         ⟨"src/other.ts", Op.create, ApplyMethod.replaceFile, some "z", none, none, none⟩]
        ⟨true, false, false⟩
      = ([("src/new.ts", "x"), ("src/old.ts", "orig")],
         [⟨"src/new.ts", Op.create, ApplyMethod.replaceFile, some "x", none, none, none⟩,
          ⟨"src/old.ts", Op.update, ApplyMethod.diff, none, some "@@ -1 +1 @@", none, none⟩,
          ⟨"src/other.ts", Op.create, ApplyMethod.replaceFile, some "z", none, none, none⟩],
         Except.error ("Transaction failed and rolled back: " ++
           "Failed to apply change to src/old.ts: " ++
           "Diff application not yet implemented - use replaceFile method"))
    ∧ fsLookup [("src/new.ts", "x"), ("src/old.ts", "orig")] "src/new.ts" = some "x" := by
  decide

/-! ## Claims C4 and C5: correctness of the cycle detector

The depth-first search with a visited set and a recursion stack is proved
sound (a true answer exhibits a dependency cycle) and complete (a false
answer certifies that no identifier can reach a cycle), and its fuel is
proved sufficient, which is the termination statement for the source's
unfueled recursion. -/

theorem contains_iff_mem {l : List String} {a : String} : l.contains a = true ↔ a ∈ l :=
  List.elem_iff

theorem stackChain_reach (steps : List Step) :
    ∀ (ts : List String) (t : String), stackChain steps (t :: ts) →
      ∀ m ∈ t :: ts, Relation.ReflTransGen (stepEdge steps) m t := by
  intro ts
  induction ts with
  | nil =>
    intro t _ m hm
    rw [List.mem_singleton] at hm
    subst hm
    exact .refl
  | cons b ts' ih =>
    intro t hchain m hm
    obtain ⟨hedge, hchain'⟩ := hchain
    rcases List.mem_cons.mp hm with hm | hm
    · subst hm; exact .refl
    · exact Relation.ReflTransGen.tail (ih b hchain' m hm) hedge

theorem hasCycleMany_visited_mono (steps : List Step) :
    ∀ (fuel : Nat) (ids v s : List String) (b : Bool) (v' : List String),
      hasCycleMany steps fuel ids v s = some (b, v') → v ⊆ v' := by
  intro fuel
  induction fuel with
  | zero => intro ids v s b v' h; rw [hasCycleMany] at h; cases h
  | succ fuel ih =>
    intro ids v s b v' h
    cases ids with
    | nil =>
      rw [hasCycleMany] at h
      cases h
      exact List.Subset.refl v
    | cons id rest =>
      rw [hasCycleMany] at h
      by_cases hstk : s.contains id
      · rw [if_pos hstk] at h
        cases h
        exact List.Subset.refl v
      · rw [if_neg hstk] at h
        by_cases hvis : v.contains id
        · rw [if_pos hvis] at h
          exact ih rest v s b v' h
        · rw [if_neg hvis] at h
          cases hfind : steps.find? (fun st => st.id == id) with
          | none =>
            simp only [hfind] at h
            exact fun x hx => ih rest (id :: v) s b v' h (List.mem_cons_of_mem _ hx)
          | some st =>
            simp only [hfind] at h
            cases hsub : hasCycleMany steps fuel st.dependencies (id :: v) (id :: s) with
            | none => simp only [hsub] at h; cases h
            | some pr =>
              obtain ⟨bb, v₁⟩ := pr
              simp only [hsub] at h
              cases bb with
              | true =>
                cases h
                exact fun x hx =>
                  ih st.dependencies (id :: v) (id :: s) true v' hsub
                    (List.mem_cons_of_mem _ hx)
              | false =>
                have h₁ := ih st.dependencies (id :: v) (id :: s) false v₁ hsub
                have h₂ := ih rest v₁ s b v' h
                exact fun x hx => h₂ (h₁ (List.mem_cons_of_mem _ hx))

theorem hasCycleMany_sound (steps : List Step) :
    ∀ (fuel : Nat) (ids v s v' : List String),
      hasCycleMany steps fuel ids v s = some (true, v') →
      stackChain steps s →
      (∀ id ∈ ids, ∀ t ts, s = t :: ts → stepEdge steps t id) →
      Cyclic steps := by
  intro fuel
  induction fuel with
  | zero => intro ids v s v' h; rw [hasCycleMany] at h; cases h
  | succ fuel ih =>
    intro ids v s v' h hchain hpre
    cases ids with
    | nil => rw [hasCycleMany] at h; cases h
    | cons id rest =>
      rw [hasCycleMany] at h
      by_cases hstk : s.contains id
      · have hid : id ∈ s := contains_iff_mem.mp hstk
        cases s with
        | nil => cases hid
        | cons t ts =>
          have hedge : stepEdge steps t id := hpre id (by simp) t ts rfl
          have hreach : Relation.ReflTransGen (stepEdge steps) id t :=
            stackChain_reach steps ts t hchain id hid
          exact ⟨id, Relation.TransGen.tail' hreach hedge⟩
      · rw [if_neg hstk] at h
        by_cases hvis : v.contains id
        · rw [if_pos hvis] at h
          exact ih rest v s v' h hchain
            fun x hx t ts hts => hpre x (List.mem_cons_of_mem _ hx) t ts hts
        · rw [if_neg hvis] at h
          cases hfind : steps.find? (fun st => st.id == id) with
          | none =>
            simp only [hfind] at h
            exact ih rest (id :: v) s v' h hchain
              fun x hx t ts hts => hpre x (List.mem_cons_of_mem _ hx) t ts hts
          | some st =>
            simp only [hfind] at h
            cases hsub : hasCycleMany steps fuel st.dependencies (id :: v) (id :: s) with
            | none => simp only [hsub] at h; cases h
            | some pr =>
              obtain ⟨bb, v₁⟩ := pr
              simp only [hsub] at h
              cases bb with
              | false =>
                exact ih rest v₁ s v' h hchain
                  fun x hx t ts hts => hpre x (List.mem_cons_of_mem _ hx) t ts hts
              | true =>
                refine ih st.dependencies (id :: v) (id :: s) v₁ hsub ?_ ?_
                · cases s with
                  | nil => trivial
                  | cons t ts => exact ⟨hpre id (by simp) t ts rfl, hchain⟩
                · intro d hd t ts hts
                  injection hts with h1 _
                  subst h1
                  exact ⟨st, hfind, hd⟩

theorem hasCycleMany_complete (steps : List Step) :
    ∀ (fuel : Nat) (ids v s v'' : List String),
      hasCycleMany steps fuel ids v s = some (false, v'') →
      (∀ z ∈ v, z ∈ s ∨ CleanId steps z) →
      (∀ z ∈ v'', z ∈ s ∨ CleanId steps z) ∧ ∀ id ∈ ids, CleanId steps id := by
  intro fuel
  induction fuel with
  | zero => intro ids v s v'' h; rw [hasCycleMany] at h; cases h
  | succ fuel ih =>
    intro ids v s v'' h hv
    cases ids with
    | nil =>
      rw [hasCycleMany] at h
      cases h
      exact ⟨hv, by simp⟩
    | cons id rest =>
      rw [hasCycleMany] at h
      by_cases hstk : s.contains id
      · rw [if_pos hstk] at h
        cases h
      · rw [if_neg hstk] at h
        have hid_not_s : id ∉ s := fun hmem => hstk (contains_iff_mem.mpr hmem)
        by_cases hvis : v.contains id
        · rw [if_pos hvis] at h
          have hidclean : CleanId steps id :=
            (hv id (contains_iff_mem.mp hvis)).resolve_left hid_not_s
          obtain ⟨hv'', hrest⟩ := ih rest v s v'' h hv
          refine ⟨hv'', fun x hx => ?_⟩
          rcases List.mem_cons.mp hx with hx | hx
          · subst hx; exact hidclean
          · exact hrest x hx
        · rw [if_neg hvis] at h
          cases hfind : steps.find? (fun st => st.id == id) with
          | none =>
            have hnoedge : ∀ y, ¬ stepEdge steps id y := by
              rintro y ⟨st', hfind', _⟩
              simp only [hfind] at hfind'
              cases hfind'
            have hidclean : CleanId steps id := by
              intro y hy hcyc
              rcases Relation.ReflTransGen.cases_head hy with heq | ⟨c, hc, _⟩
              · subst heq
                obtain ⟨c, hc, _⟩ := Relation.TransGen.head'_iff.mp hcyc
                exact hnoedge c hc
              · exact hnoedge c hc
            simp only [hfind] at h
            obtain ⟨hv'', hrest⟩ := ih rest (id :: v) s v'' h (by
              intro z hz
              rcases List.mem_cons.mp hz with hz | hz
              · subst hz; exact Or.inr hidclean
              · exact hv z hz)
            refine ⟨hv'', fun x hx => ?_⟩
            rcases List.mem_cons.mp hx with hx | hx
            · subst hx; exact hidclean
            · exact hrest x hx
          | some st =>
            simp only [hfind] at h
            cases hsub : hasCycleMany steps fuel st.dependencies (id :: v) (id :: s) with
            | none => simp only [hsub] at h; cases h
            | some pr =>
              obtain ⟨bb, v₁⟩ := pr
              simp only [hsub] at h
              cases bb with
              | true => cases h
              | false =>
                obtain ⟨hv₁, hdeps⟩ := ih st.dependencies (id :: v) (id :: s) v₁ hsub (by
                  intro z hz
                  rcases List.mem_cons.mp hz with hz | hz
                  · subst hz; exact Or.inl (by simp)
                  · rcases hv z hz with hzs | hzc
                    · exact Or.inl (List.mem_cons_of_mem _ hzs)
                    · exact Or.inr hzc)
                have hedge_dep : ∀ y, stepEdge steps id y → y ∈ st.dependencies := by
                  rintro y ⟨st', hfind', hy⟩
                  simp only [hfind] at hfind'
                  cases hfind'
                  exact hy
                have hidclean : CleanId steps id := by
                  intro y hy hcyc
                  rcases Relation.ReflTransGen.cases_head hy with heq | ⟨c, hc, hcy⟩
                  · subst heq
                    obtain ⟨c, hc, hcid⟩ := Relation.TransGen.head'_iff.mp hcyc
                    exact hdeps c (hedge_dep c hc) id hcid hcyc
                  · exact hdeps c (hedge_dep c hc) y hcy hcyc
                have hv₁' : ∀ z ∈ v₁, z ∈ s ∨ CleanId steps z := by
                  intro z hz
                  rcases hv₁ z hz with hzs | hzc
                  · rcases List.mem_cons.mp hzs with hzi | hzs
                    · subst hzi; exact Or.inr hidclean
                    · exact Or.inl hzs
                  · exact Or.inr hzc
                obtain ⟨hv'', hrest⟩ := ih rest v₁ s v'' h hv₁'
                refine ⟨hv'', fun x hx => ?_⟩
                rcases List.mem_cons.mp hx with hx | hx
                · subst hx; exact hidclean
                · exact hrest x hx

theorem stepWeight_mono (steps : List Step) {v v' : List String} (h : v ⊆ v') :
    stepWeight steps v' ≤ stepWeight steps v := by
  apply Finset.sum_le_sum_of_subset
  apply Finset.sdiff_subset_sdiff (le_refl _)
  intro x hx
  exact List.mem_toFinset.mpr (h (List.mem_toFinset.mp hx))

theorem stepWeight_insert (steps : List Step) {v : List String} {id : String}
    (hu : id ∈ stepUniv steps) (hv : id ∉ v) :
    stepWeight steps v = stepWeight steps (id :: v) + (1 + depsLen steps id) := by
  have hmem : id ∈ (stepUniv steps).toFinset \ v.toFinset := by
    rw [Finset.mem_sdiff]
    exact ⟨List.mem_toFinset.mpr hu, fun hc => hv (List.mem_toFinset.mp hc)⟩
  have hset : (stepUniv steps).toFinset \ (id :: v).toFinset
      = ((stepUniv steps).toFinset \ v.toFinset).erase id := by
    rw [List.toFinset_cons, Finset.sdiff_insert]
  rw [stepWeight, stepWeight, hset]
  exact (Finset.sum_erase_add _ _ hmem).symm

theorem hasCycleMany_ne_none (steps : List Step) :
    ∀ (fuel : Nat) (ids v s : List String),
      (∀ id ∈ ids, id ∈ stepUniv steps) →
      ids.length + stepWeight steps v + 1 ≤ fuel →
      hasCycleMany steps fuel ids v s ≠ none := by
  intro fuel
  induction fuel with
  | zero => intro ids v s _ hbound; omega
  | succ fuel ih =>
    intro ids v s hids hbound
    cases ids with
    | nil => rw [hasCycleMany]; simp
    | cons id rest =>
      rw [hasCycleMany]
      by_cases hstk : s.contains id
      · rw [if_pos hstk]; simp
      · rw [if_neg hstk]
        by_cases hvis : v.contains id
        · rw [if_pos hvis]
          apply ih rest v s (fun x hx => hids x (List.mem_cons_of_mem _ hx))
          simp only [List.length_cons] at hbound
          omega
        · rw [if_neg hvis]
          have hidu : id ∈ stepUniv steps := hids id (by simp)
          have hidv : id ∉ v := fun hmem => hvis (contains_iff_mem.mpr hmem)
          have hw := stepWeight_insert steps hidu hidv
          cases hfind : steps.find? (fun st => st.id == id) with
          | none =>
            apply ih rest (id :: v) s (fun x hx => hids x (List.mem_cons_of_mem _ hx))
            simp only [List.length_cons] at hbound
            omega
          | some st =>
            have hdl : depsLen steps id = st.dependencies.length := by
              rw [depsLen, hfind]
            have hstmem := List.mem_of_find?_eq_some hfind
            have hdeps_univ : ∀ d ∈ st.dependencies, d ∈ stepUniv steps := by
              intro d hd
              exact List.mem_append.mpr
                (Or.inr (List.mem_flatMap.mpr ⟨st, hstmem, hd⟩))
            have hsubne := ih st.dependencies (id :: v) (id :: s) hdeps_univ (by
              simp only [List.length_cons] at hbound
              omega)
            cases hsub : hasCycleMany steps fuel st.dependencies (id :: v) (id :: s) with
            | none => exact absurd hsub hsubne
            | some pr =>
              obtain ⟨bb, v₁⟩ := pr
              cases bb with
              | true => simp [hsub]
              | false =>
                simp only [hsub]
                have hmono : (id :: v) ⊆ v₁ :=
                  hasCycleMany_visited_mono steps fuel st.dependencies (id :: v) (id :: s)
                    false v₁ hsub
                have hwm : stepWeight steps v₁ ≤ stepWeight steps (id :: v) :=
                  stepWeight_mono steps hmono
                apply ih rest v₁ s (fun x hx => hids x (List.mem_cons_of_mem _ hx))
                simp only [List.length_cons] at hbound
                omega

theorem hasCircularDependenciesO_isSome (steps : List Step) :
    (hasCircularDependenciesO steps).isSome = true := by
  rw [hasCircularDependenciesO]
  have hne := hasCycleMany_ne_none steps (hasCycleFuel steps) (steps.map Step.id) [] []
    (fun x hx => List.mem_append.mpr (Or.inl hx))
    (by
      rw [hasCycleFuel]
      simp [List.length_map])
  cases hrun : hasCycleMany steps (hasCycleFuel steps) (steps.map Step.id) [] [] with
  | none => exact absurd hrun hne
  | some pr => simp

theorem hasCircularDependencies_iff_cyclic (steps : List Step) :
    hasCircularDependencies steps = true ↔ Cyclic steps := by
  constructor
  · intro h
    rw [hasCircularDependencies, hasCircularDependenciesO] at h
    cases hrun : hasCycleMany steps (hasCycleFuel steps) (steps.map Step.id) [] [] with
    | none =>
      exact absurd hrun
        (hasCycleMany_ne_none steps (hasCycleFuel steps) (steps.map Step.id) [] []
          (fun x hx => List.mem_append.mpr (Or.inl hx))
          (by rw [hasCycleFuel]; simp [List.length_map]))
    | some pr =>
      obtain ⟨bb, v'⟩ := pr
      rw [hrun] at h
      simp at h
      subst h
      exact hasCycleMany_sound steps (hasCycleFuel steps) (steps.map Step.id) [] [] v'
        hrun trivial (fun x _ t ts hts => by cases hts)
  · intro hcyc
    by_contra hne
    have hfalse : hasCircularDependencies steps = false := by
      cases hd : hasCircularDependencies steps
      · rfl
      · exact absurd hd hne
    rw [hasCircularDependencies, hasCircularDependenciesO] at hfalse
    cases hrun : hasCycleMany steps (hasCycleFuel steps) (steps.map Step.id) [] [] with
    | none => rw [hrun] at hfalse; cases hfalse
    | some pr =>
      obtain ⟨bb, v'⟩ := pr
      rw [hrun] at hfalse
      simp at hfalse
      subst hfalse
      obtain ⟨_, hclean⟩ := hasCycleMany_complete steps (hasCycleFuel steps)
        (steps.map Step.id) [] [] v' hrun (by simp)
      obtain ⟨x, hx⟩ := hcyc
      obtain ⟨c, hc, _⟩ := Relation.TransGen.head'_iff.mp hx
      obtain ⟨st, hfind, _⟩ := hc
      have hxid : x ∈ steps.map Step.id := by
        rw [List.mem_map]
        exact ⟨st, List.mem_of_find?_eq_some hfind,
          by simpa using List.find?_some hfind⟩
      exact hclean x hxid x Relation.ReflTransGen.refl hx

theorem payloadCheck_none_iff (ch : FileChange) :
    payloadCheck ch = none ↔
      ¬ (ch.applyMethod = ApplyMethod.diff ∧ strFalsy ch.diff = true)
      ∧ ¬ (ch.applyMethod = ApplyMethod.replaceFile ∧ strFalsy ch.content = true)
      ∧ ¬ (ch.applyMethod = ApplyMethod.insertAtLine ∧
            (ch.insertAtLine = none ∨ strFalsy ch.content = true)) := by
  rw [payloadCheck]
  by_cases h1 : ch.applyMethod = ApplyMethod.diff ∧ strFalsy ch.diff = true
  · rw [if_pos h1]
    simp [h1]
  · rw [if_neg h1]
    by_cases h2 : ch.applyMethod = ApplyMethod.replaceFile ∧ strFalsy ch.content = true
    · rw [if_pos h2]
      simp [h1, h2]
    · rw [if_neg h2]
      by_cases h3 : ch.applyMethod = ApplyMethod.insertAtLine ∧
          (ch.insertAtLine = none ∨ strFalsy ch.content = true)
      · rw [if_pos h3]
        simp [h1, h2, h3]
      · rw [if_neg h3]
        simp [h1, h2, h3]

theorem plannerValidateFileChange_none_iff (fs : FS) (ch : FileChange) :
    plannerValidateFileChange fs ch = none ↔ ¬ failsPrecondition fs ch := by
  rw [plannerValidateFileChange]
  by_cases hA : isPathAllowed ch.file = true
  · rw [if_neg (by simp [hA])]
    cases hop : ch.op with
    | create =>
      show (if fsExistsA fs ch.file then some "File already exists" else payloadCheck ch)
          = none ↔ ¬ failsPrecondition fs ch
      by_cases hex : fsExistsA fs ch.file = true
      · rw [if_pos hex]
        constructor
        · intro h; exact absurd h (by simp)
        · intro hnf; exact (hnf (Or.inr (Or.inl ⟨hop, hex⟩))).elim
      · rw [if_neg hex, payloadCheck_none_iff]
        have hexf : fsExistsA fs ch.file = false := by simpa using hex
        simp only [failsPrecondition, hop, hA, hexf]
        simp [not_or]
    | update =>
      show (if ¬ fsExistsA fs ch.file then some "File does not exist" else payloadCheck ch)
          = none ↔ ¬ failsPrecondition fs ch
      by_cases hex : fsExistsA fs ch.file = true
      · rw [if_neg (by simp [hex]), payloadCheck_none_iff]
        simp only [failsPrecondition, hop, hA, hex]
        simp [not_or]
      · rw [if_pos hex]
        constructor
        · intro h; exact absurd h (by simp)
        · intro hnf
          exact (hnf (Or.inr (Or.inr (Or.inl ⟨Or.inl hop, by simpa using hex⟩)))).elim
    | delete =>
      show (if ¬ fsExistsA fs ch.file then some "File does not exist" else payloadCheck ch)
          = none ↔ ¬ failsPrecondition fs ch
      by_cases hex : fsExistsA fs ch.file = true
      · rw [if_neg (by simp [hex]), payloadCheck_none_iff]
        simp only [failsPrecondition, hop, hA, hex]
        simp [not_or]
      · rw [if_pos hex]
        constructor
        · intro h; exact absurd h (by simp)
        · intro hnf
          exact (hnf (Or.inr (Or.inr (Or.inl ⟨Or.inr hop, by simpa using hex⟩)))).elim
    | rename =>
      show (if ¬ fsExistsA fs ch.file then some "Source file does not exist"
            else if strFalsy ch.newPath then some "New path required for rename operation"
            else payloadCheck ch)
          = none ↔ ¬ failsPrecondition fs ch
      by_cases hex : fsExistsA fs ch.file = true
      · rw [if_neg (by simp [hex])]
        by_cases hnp : strFalsy ch.newPath = true
        · rw [if_pos hnp]
          constructor
          · intro h; exact absurd h (by simp)
          · intro hnf
            exact (hnf (Or.inr (Or.inr (Or.inr (Or.inl ⟨hop, Or.inr hnp⟩))))).elim
        · rw [if_neg hnp, payloadCheck_none_iff]
          have hnp' : strFalsy ch.newPath = false := by simpa using hnp
          simp only [failsPrecondition, hop, hA, hex, hnp']
          simp [not_or]
      · rw [if_pos hex]
        constructor
        · intro h; exact absurd h (by simp)
        · intro hnf
          exact (hnf (Or.inr (Or.inr (Or.inr (Or.inl ⟨hop,
            Or.inl (by simpa using hex)⟩))))).elim
  · rw [if_pos (by simpa using hA)]
    constructor
    · intro h; exact absurd h (by simp)
    · intro hnf; exact (hnf (Or.inl (by simpa using hA))).elim

theorem collectChangeErrs_eq_nil_iff (fs : FS) :
    ∀ changes : List FileChange,
      collectChangeErrs fs changes = [] ↔
        ∀ ch ∈ changes, plannerValidateFileChange fs ch = none := by
  intro changes
  induction changes with
  | nil => simp [collectChangeErrs]
  | cons ch rest ih =>
    rw [collectChangeErrs]
    cases hval : plannerValidateFileChange fs ch with
    | some e =>
      constructor
      · intro h; simp at h
      · intro hall
        exact absurd (hall ch (by simp)) (by simp [hval])
    | none =>
      simp only [List.nil_append]
      constructor
      · intro h x hx
        rcases List.mem_cons.mp hx with hx | hx
        · subst hx; exact hval
        · exact ih.mp h x hx
      · intro hall
        exact ih.mpr fun x hx => hall x (List.mem_cons_of_mem _ hx)

theorem collectDepErrs_eq_nil_iff (ids : List String) :
    ∀ steps : List Step,
      collectDepErrs ids steps = [] ↔
        ∀ st ∈ steps, ∀ d ∈ st.dependencies, d ∈ ids := by
  intro steps
  induction steps with
  | nil => simp [collectDepErrs]
  | cons st rest ih =>
    rw [collectDepErrs, List.append_eq_nil, List.map_eq_nil_iff, List.filter_eq_nil_iff, ih]
    constructor
    · rintro ⟨hfil, hrest⟩ x hx
      rcases List.mem_cons.mp hx with hx | hx
      · subst hx
        intro d hd
        have := hfil d hd
        simpa [contains_iff_mem] using this
      · exact hrest x hx
    · intro hall
      refine ⟨?_, fun x hx => hall x (List.mem_cons_of_mem _ hx)⟩
      intro d hd
      simp [contains_iff_mem]
      exact hall st (by simp) d hd

set_option maxHeartbeats 2000000 in
/-- C4. validatePlan reports a plan invalid exactly when a step lists a
dependency id that is not the id of any step in the same plan, or the
step-dependency graph contains a cycle (in the genuine reachability
sense: some identifier reaches itself through dependency edges), or some
FileChange fails its per-operation precondition as characterized by
failsPrecondition (path not allowed, create target exists, update/delete
target missing, rename source missing or newPath absent, or the
apply-method's required payload field missing). -/
theorem validatePlan_false_iff :
    ∀ (fs : FS) (plan : Plan),
      (validatePlan fs plan).1 = false ↔
        ((∃ st ∈ plan.steps, ∃ d ∈ st.dependencies, d ∉ plan.steps.map Step.id)
         ∨ Cyclic plan.steps
         ∨ ∃ ch ∈ plan.changes, failsPrecondition fs ch) := by
  intro fs plan
  have h1 : (validatePlan fs plan).1 = (validatePlanErrors fs plan).isEmpty := rfl
  have hiff : ∀ l : List String, (l.isEmpty = false) ↔ l ≠ [] := by
    intro l; cases l <;> simp
  rw [h1, hiff, validatePlanErrors]
  have hsplit : (collectChangeErrs fs plan.changes
      ++ collectDepErrs (plan.steps.map Step.id) plan.steps
      ++ (if hasCircularDependencies plan.steps
          then ["Plan contains circular dependencies"] else [])) ≠ [] ↔
      (collectChangeErrs fs plan.changes ≠ []
        ∨ collectDepErrs (plan.steps.map Step.id) plan.steps ≠ []
        ∨ (if hasCircularDependencies plan.steps
            then ["Plan contains circular dependencies"] else []) ≠ []) := by
    constructor
    · intro h
      by_contra hcon
      push_neg at hcon
      obtain ⟨he1, he2, he3⟩ := hcon
      exact h (by rw [he1, he2, he3]; rfl)
    · rintro (h | h | h) hnil
      · exact h (List.append_eq_nil.mp (List.append_eq_nil.mp hnil).1).1
      · exact h (List.append_eq_nil.mp (List.append_eq_nil.mp hnil).1).2
      · exact h (List.append_eq_nil.mp hnil).2
  rw [hsplit]
  have hc : collectChangeErrs fs plan.changes ≠ [] ↔
      ∃ ch ∈ plan.changes, failsPrecondition fs ch := by
    rw [Ne, collectChangeErrs_eq_nil_iff]
    constructor
    · intro h
      simp only [not_forall] at h
      obtain ⟨ch, hch, hne⟩ := h
      refine ⟨ch, hch, ?_⟩
      by_contra hf
      exact hne ((plannerValidateFileChange_none_iff fs ch).mpr hf)
    · rintro ⟨ch, hch, hf⟩ hall
      exact (plannerValidateFileChange_none_iff fs ch).mp (hall ch hch) hf
  have hd : collectDepErrs (plan.steps.map Step.id) plan.steps ≠ [] ↔
      ∃ st ∈ plan.steps, ∃ d ∈ st.dependencies, d ∉ plan.steps.map Step.id := by
    rw [Ne, collectDepErrs_eq_nil_iff]
    constructor
    · intro h
      simp only [not_forall] at h
      obtain ⟨st, hst, d, hd, hnm⟩ := h
      exact ⟨st, hst, d, hd, hnm⟩
    · rintro ⟨st, hst, d, hd, hnm⟩ hall
      exact hnm (hall st hst d hd)
  have hcy : (if hasCircularDependencies plan.steps
      then ["Plan contains circular dependencies"] else []) ≠ [] ↔
      Cyclic plan.steps := by
    rw [← hasCircularDependencies_iff_cyclic]
    by_cases h : hasCircularDependencies plan.steps = true
    · simp [h]
    · simp [h]
  rw [hc, hd, hcy]
  constructor
  · rintro (h | h | h)
    · exact Or.inr (Or.inr h)
    · exact Or.inl h
    · exact Or.inr (Or.inl h)
  · rintro (h | h | h)
    · exact Or.inr (Or.inl h)
    · exact Or.inr (Or.inr h)
    · exact Or.inl h

theorem collectChangeErrs_head (fs : FS) :
    ∀ (changes : List FileChange), ∀ e ∈ collectChangeErrs fs changes,
      e.data.head? = some 'F' := by
  intro changes
  induction changes with
  | nil => intro e he; cases he
  | cons ch rest ih =>
    intro e he
    rw [collectChangeErrs] at he
    rcases List.mem_append.mp he with he | he
    · cases hval : plannerValidateFileChange fs ch with
      | none => rw [hval] at he; cases he
      | some err =>
        rw [hval] at he
        have : e = "File " ++ ch.file ++ ": " ++ err := List.mem_singleton.mp he
        subst this
        simp only [String.data_append]
        rfl
    · exact ih e he

theorem collectDepErrs_head (ids : List String) :
    ∀ (steps : List Step), ∀ e ∈ collectDepErrs ids steps,
      e.data.head? = some 'S' := by
  intro steps
  induction steps with
  | nil => intro e he; cases he
  | cons st rest ih =>
    intro e he
    rw [collectDepErrs] at he
    rcases List.mem_append.mp he with he | he
    · obtain ⟨d, _, hde⟩ := List.mem_map.mp he
      subst hde
      simp only [String.data_append]
      rfl
    · exact ih e he

theorem validatePlan_cycle_error_count (fs : FS) (plan : Plan) :
    (validatePlan fs plan).2.count "Plan contains circular dependencies" ≤ 1 := by
  have h2 : (validatePlan fs plan).2 = validatePlanErrors fs plan := rfl
  rw [h2, validatePlanErrors, List.count_append, List.count_append]
  have hcE : (collectChangeErrs fs plan.changes).count
      "Plan contains circular dependencies" = 0 := by
    rw [List.count_eq_zero]
    intro hmem
    have := collectChangeErrs_head fs plan.changes _ hmem
    exact absurd this (by decide)
  have hdE : (collectDepErrs (plan.steps.map Step.id) plan.steps).count
      "Plan contains circular dependencies" = 0 := by
    rw [List.count_eq_zero]
    intro hmem
    have := collectDepErrs_head (plan.steps.map Step.id) plan.steps _ hmem
    exact absurd this (by decide)
  have hcy : (if hasCircularDependencies plan.steps
      then ["Plan contains circular dependencies"] else []).count
      "Plan contains circular dependencies" ≤ 1 := by
    by_cases h : hasCircularDependencies plan.steps = true
    · simp [h]
    · simp [h]
  omega

/-- C5. The cycle detector terminates regardless of graph size (its
fueled search always yields an answer at the chosen fuel, which is the
termination statement for the source's unfueled recursion), every
validation reports the circular-dependency error at most once rather
than once per cycle, and the concrete three-step cycle A→B→C→A is
reported invalid with exactly one such error. -/
theorem cycle_detection_terminates_single_error :
    (∀ steps : List Step, (hasCircularDependenciesO steps).isSome = true)
    ∧ (∀ (fs : FS) (plan : Plan),
        (validatePlan fs plan).2.count "Plan contains circular dependencies" ≤ 1)
    ∧ (validatePlan [] ⟨"p", [⟨"A", ["B"]⟩, ⟨"B", ["C"]⟩, ⟨"C", ["A"]⟩], []⟩).1 = false
    ∧ (validatePlan [] ⟨"p", [⟨"A", ["B"]⟩, ⟨"B", ["C"]⟩, ⟨"C", ["A"]⟩], []⟩).2.count
        "Plan contains circular dependencies" = 1 :=
  ⟨hasCircularDependenciesO_isSome, validatePlan_cycle_error_count, by decide, by decide⟩

end VedxBuilder
